import Mathlib

/-!
# ctags: tag collection, tag ordering and the two output serialisations

A shallow embedding of `src/ctags.c`.  C strings are `String`s (one `Char` per
C `char`), the C `int` line number is an `Int`, and the process-wide variables
(`tagroot`, `output`, the `static int bracket` of `checkcline`, the collation
selected by `setlocale`, the heap objects obtained from `calloc`, the three
standard streams and the file system) are the fields of one explicit `State`
that every function takes and returns.

The libc functions the program calls (`strstr`, `strrchr`, `strcmp`,
`tsearch`, `twalk`, `getline`, `feof`, `fopen`) are modelled from their POSIX
descriptions, and `getopt` by the sequence of its returns.  Three things are
assumed: memory allocation succeeds, reading an open file fails only at the
end of its input, and a file has fewer than 2^31 lines, so that the `int`
line counter does not overflow.

The loop of `addtags` ignores the return value of `getline`.  When the input
ends with a newline, or is empty, the loop takes one more turn after the last
line, in which `getline` reads nothing and the classifier sees whatever the
fresh buffer holds; these indeterminate characters are the parameter `junk`.
They belong to one process: two runs of the program are described with two
values of it.
-/

namespace Ctags

/-! ## Data model -/

/-- The record `struct tag` of the source. -/
structure tag where
  id : String
  file : String
  text : String
  line : Int
deriving DecidableEq, Repr

/-- The binary tree that `tsearch` builds behind the `void *tagroot` handle:
`null` is the empty tree (a `NULL` root). -/
inductive node where
  | null : node
  | mk (key : tag) (left right : node) : node
deriving DecidableEq, Repr

/-- The enumeration `VISIT` of `<search.h>`. -/
inductive VISIT where
  | preorder
  | postorder
  | endorder
  | leaf
deriving DecidableEq, Repr

/-- A stream opened for reading: the characters not yet consumed and the
end-of-file indicator tested by `feof`. -/
structure FILE where
  rest : List Char
  eof : Bool
deriving DecidableEq, Repr

/-- What the program finds around it and never changes: the collation of the
locale named by the environment (`setlocale(LC_ALL, "")`), whether `fopen`
succeeds on a path for reading and for writing, the message `strerror(errno)`
after a failed `fopen` of a path, and the indeterminate characters that
`line` points to after the `getline` on a path that has read nothing.  These
characters are those that one process finds: another process, also one run
on the same files, may find others, and is then described by another value
of the field `junk`. -/
structure Env where
  ambient : String → String → Int
  readable : String → Bool
  writable : String → Bool
  strerror : String → String
  junk : String → List Char

/-- The mutable state of the process. -/
structure State where
  /-- `strcoll` under the `LC_COLLATE` category currently selected. -/
  strcoll : String → String → Int
  /-- The global `void *tagroot`. -/
  tagroot : node
  /-- The global `FILE *output`: `none` is `NULL`, `some w` an open stream to
  which the text `w` has been written. -/
  output : Option String
  /-- The `struct tag` objects obtained from `calloc` in `addtag`, in
  allocation order (none is ever freed). -/
  heap : List tag
  /-- The variable `static int bracket` of `checkcline`. -/
  bracket : Int
  /-- Text written to the standard output stream. -/
  stdout : String
  /-- Text written to the standard error stream. -/
  stderr : String
  /-- The file system: the content of every path that names a file. -/
  fs : String → Option String

/-! ## libc -/

/-- The function `strcmp`: the sign of the first differing pair of
characters, compared as unsigned values; a proper prefix is smaller. -/
def strcmpl : List Char → List Char → Int
  | [], [] => 0
  | [], _ :: _ => -1
  | _ :: _, [] => 1
  | a :: as, b :: bs => if a = b then strcmpl as bs else (a.toNat : Int) - (b.toNat : Int)

/-- The function `strcmp` on strings; it is also `strcoll` in the POSIX
locale. -/
def strcmp (l r : String) : Int := strcmpl l.data r.data

/-- The function `strstr` on character lists: the suffix of the haystack that
starts at the first occurrence of the needle, `none` (the `NULL` pointer) when
there is no occurrence. -/
def strstrl : List Char → List Char → Option (List Char)
  | [], needle => if needle.isPrefixOf [] then some [] else none
  | c :: cs, needle =>
    if needle.isPrefixOf (c :: cs) then some (c :: cs) else strstrl cs needle

/-- The function `strstr`. -/
def strstr (haystack needle : String) : Option String :=
  (strstrl haystack.data needle.data).map String.mk

/-- The function `strrchr` on character lists: the suffix that starts at the
last occurrence of `c`, `none` when `c` does not occur. -/
def strrchrl (c : Char) : List Char → Option (List Char)
  | [] => none
  | x :: xs =>
    match strrchrl c xs with
    | some r => some r
    | none => if x = c then some (x :: xs) else none

/-- The function `strrchr`. -/
def strrchr (s : String) (c : Char) : Option String :=
  (strrchrl c s.data).map String.mk

/-- The function `tsearch`: descend from the root comparing the key with the
key of each node (`compar key node`); a node that compares equal ends the
search and the tree is left as it is; otherwise the search goes left on a
negative and right on a positive result, and a new node holding the key is
attached where the search falls off the tree.  (Rebalancing, which an
implementation may add, changes neither the set of keys nor their in-order
sequence.) -/
def tsearch (compar : tag → tag → Int) (key : tag) : node → node
  | node.null => node.mk key node.null node.null
  | node.mk k l r =>
    if compar key k = 0 then node.mk k l r
    else if compar key k < 0 then node.mk k (tsearch compar key l) r
    else node.mk k l (tsearch compar key r)

/-- The function `twalk`: depth-first, left-to-right walk that calls `action`
with the node, the kind of visit and the depth.  A node without children is
visited once as `leaf`; any other node three times, as `preorder` before its
left subtree, `postorder` between the subtrees and `endorder` after the right
one. -/
def twalk_level {σ : Type} (action : tag → VISIT → Nat → σ → σ) : node → Nat → σ → σ
  | node.null, _, s => s
  | node.mk k node.null node.null, level, s => action k VISIT.leaf level s
  | node.mk k l r, level, s =>
    let s1 := action k VISIT.preorder level s
    let s2 := twalk_level action l (level + 1) s1
    let s3 := action k VISIT.postorder level s2
    let s4 := twalk_level action r (level + 1) s3
    action k VISIT.endorder level s4

/-- The call `twalk(root, action)`. -/
def twalk {σ : Type} (root : node) (action : tag → VISIT → Nat → σ → σ) (s : σ) : σ :=
  twalk_level action root 0 s

/-- The function `feof`. -/
def feof (f : FILE) : Bool := f.eof

/-- Characters up to and including the first newline, and what follows it. -/
def splitline : List Char → List Char × List Char
  | [] => ([], [])
  | c :: cs =>
    if c = '\n' then ([c], cs)
    else ((splitline cs).1.cons c, (splitline cs).2)

/-- The call `getline(&line, &n, f)` with `line == NULL`: the characters the
freshly allocated buffer `line` holds afterwards, and the stream.  A line is
read up to and including its newline; when the input ends before a newline is
found the end-of-file indicator is set; when nothing at all could be read the
call fails and the buffer holds `junk`. -/
def getline (junk : List Char) (f : FILE) : List Char × FILE :=
  match f.rest with
  | [] => (junk, { rest := [], eof := true })
  | c :: cs =>
    let p := splitline (c :: cs)
    if p.1.getLast? = some '\n' then (p.1, { rest := p.2, eof := f.eof })
    else (p.1, { rest := p.2, eof := true })

/-- The call `fopen(path, "r")`: the content of the file, `none` for `NULL`. -/
def fopen_r (env : Env) (path : String) (s : State) : Option String :=
  if env.readable path then s.fs path else none

/-- The call `fopen(path, append ? "a" : "w")`: `none` for `NULL`; otherwise
the state in which the file exists, emptied unless `append`, and `output` is a
stream to which nothing has been written yet. -/
def fopen_w (env : Env) (path : String) (append : Bool) (s : State) : Option State :=
  if env.writable path then
    let old := if append then (s.fs path).getD "" else ""
    some { s with output := some "", fs := Function.update s.fs path (some old) }
  else none

/-- The C string a buffer holds: its characters before the first NUL. -/
def cstr (buf : List Char) : List Char := buf.takeWhile (fun c => c ≠ '\x00')

/-- The function `strlen`. -/
def strlen (buf : List Char) : Nat := (cstr buf).length

/-- The statement `line[strlen(line) - 1] = '\0'`: the C string that the
buffer holds afterwards.  On an empty string the write lands in front of the
buffer and the string stays empty. -/
def chop (buf : List Char) : String :=
  String.mk ((cstr buf).take (strlen buf - 1))

/-! ## The program -/

/-- The function `compar`. -/
def compar (strcoll : String → String → Int) (l r : tag) : Int :=
  strcoll l.id r.id

/-- The function `addtag`. -/
def addtag (id file text : String) (line : Int) (s : State) : State :=
  let t : tag := { id := id, text := text, line := line, file := file }
  { s with heap := s.heap ++ [t], tagroot := tsearch (compar s.strcoll) t s.tagroot }

/-- The function `checkcline`. -/
def checkcline (text : String) (line : Int) (path : String) (s : State) : State :=
  let s := if line = 1 then { s with bracket := 0 } else s
  if (strstr text "#define ").isSome then
    addtag "define" path text line s
  else if (strstr text "typedef").isSome then
    addtag "typedef" path text line s
  else if s.bracket = 0 then
    addtag "identifier" path text line s
  else s

/-- The function `checkfline`. -/
def checkfline (text : String) (line : Int) (path : String) (s : State) : State :=
  if (strstr text "FUNCTION").isSome then
    addtag "FUNCTION" path text line s
  else s

/-- The local enumeration of `addtags`. -/
inductive filetype where
  | UNKNOWN
  | C
  | FORTRAN
deriving DecidableEq, Repr

/-- The loop `while (!feof(f)) { ... }` of `addtags`.  Each turn reads a line,
overwrites the character at `strlen(line) - 1` with NUL, counts the line and
hands it to the classifier of the file type.  The first argument bounds the
number of turns; `none` means that the bound was reached. -/
def scan (junk : List Char) (ft : filetype) (path : String) :
    Nat → FILE → Int → State → Option State
  | 0, _, _, _ => none
  | fuel + 1, f, lineno, s =>
    if feof f then some s
    else
      let p := getline junk f
      let line := chop p.1
      let lineno := lineno + 1
      let s :=
        if ft = filetype.FORTRAN then checkfline line lineno path s
        else checkcline line lineno path s
      scan junk ft path fuel p.2 lineno s

/-- The function `addtags`: the return value and the state.  The loop is
given more turns than it can take (every turn but the last consumes a
character). -/
def addtags (env : Env) (path : String) (s : State) : Option (Int × State) :=
  match strrchr path '.' with
  | none =>
    some (1, { s with stderr := s.stderr ++
      "ctags: Don't know how to process files without an extension (" ++ path ++ ")\n" })
  | some extension =>
    if strcmp extension ".c" = 0 ∨ strcmp extension ".h" = 0 then
      addtags_scan filetype.C
    else if strcmp extension ".f" = 0 then
      addtags_scan filetype.FORTRAN
    else
      some (1, { s with stderr := s.stderr ++
        "ctags: Don't know how to process files with extension '" ++ extension ++ "'\n" })
where
  /-- The part of `addtags` from `fopen` on. -/
  addtags_scan (ft : filetype) : Option (Int × State) :=
    match fopen_r env path s with
    | none =>
      some (1, { s with stderr := s.stderr ++
        "ctags: Couldn't open " ++ path ++ ": " ++ env.strerror path ++ "\n" })
    | some content =>
      (scan (env.junk path) ft path (content.data.length + 2) { rest := content.data, eof := false } 0 s).map
        (fun s1 => (0, s1))

/-- The function `writefile`. -/
def writefile (t : tag) (v : VISIT) (_level : Nat) (s : State) : State :=
  if v ≠ VISIT.postorder ∧ v ≠ VISIT.leaf then s
  else
    let pattern := t.text
    let record := t.id ++ "\t" ++ t.file ++ "\t/^" ++ pattern ++ "$/\n"
    { s with output := Option.map (fun w => w ++ record) s.output }

/-- The conversion `%d` of `printf`. -/
def fmt_d (n : Int) : String := toString n

/-- The function `writex`. -/
def writex (t : tag) (v : VISIT) (_level : Nat) (s : State) : State :=
  if v ≠ VISIT.postorder ∧ v ≠ VISIT.leaf then s
  else
    { s with stdout := s.stdout ++ t.id ++ " " ++ fmt_d t.line ++ " " ++ t.file ++ " " ++
        t.text ++ "\n" }

/-- The state in which `main` is entered: the C locale, an empty tree, no
output stream, `bracket` initialised to 0, nothing written. -/
def init (fs : String → Option String) : State :=
  { strcoll := strcmp, tagroot := node.null, output := none, heap := [], bracket := 0,
    stdout := "", stderr := "", fs := fs }

/-- The option loop of `main` over the successive returns of `getopt`
(option character and `optarg`), acting on the variables `tagsfile` (`none`
is `NULL`) and `append`; `none` is the `default:` branch, `return 1`. -/
def getopts : List (Char × String) → Option String × Bool → Option (Option String × Bool)
  | [], v => some v
  | (c, optarg) :: rest, (tagsfile, append) =>
    if c = 'a' then getopts rest (tagsfile, true)
    else if c = 'f' then getopts rest (some optarg, append)
    else if c = 'x' then getopts rest (none, append)
    else none

/-- The loop `while (optind < argc) r |= addtags(argv[optind++])` of `main`. -/
def addall (env : Env) : List String → Int → State → Option (Int × State)
  | [], r, s => some (r, s)
  | path :: rest, r, s =>
    match addtags env path s with
    | none => none
    | some (r1, s1) => addall env rest (Int.lor r r1) s1

/-- The end of the process: what was written to `output` reaches the file. -/
def exit (tagsfile : Option String) (s : State) : State :=
  match tagsfile, s.output with
  | some path, some w =>
    { s with fs := Function.update s.fs path (some ((s.fs path).getD "" ++ w)) }
  | _, _ => s

/-- The function `main`, given the returns of `getopt` and the operands
`argv[optind..]`: the exit status and the final state. -/
def main (env : Env) (opts : List (Char × String)) (operands : List String)
    (fs : String → Option String) : Option (Int × State) :=
  let s := { init fs with strcoll := env.ambient }
  match getopts opts (some "tags", false) with
  | none => some (1, s)
  | some (tagsfile, append) =>
    if operands = [] then
      some (1, { s with stderr := s.stderr ++ "ctags: At least one file must be specified\n" })
    else
      match tagsfile with
      | some path =>
        match fopen_w env path append s with
        | none =>
          some (1, { s with stderr := s.stderr ++
            "ctags: Couldn't open " ++ path ++ ": " ++ env.strerror path ++ "\n" })
        | some s1 =>
          let s2 := { s1 with strcoll := strcmp }
          match addall env operands 0 s2 with
          | none => none
          | some (r, s3) => some (r, exit tagsfile (twalk s3.tagroot writefile s3))
      | none =>
        match addall env operands 0 s with
        | none => none
        | some (r, s3) => some (r, exit tagsfile (twalk s3.tagroot writex s3))

/-! ## Notions used to state the properties -/

/-- The string `sub` occurs in `text` as a substring. -/
def Contains (text sub : String) : Prop :=
  ∃ pre post : String, text = pre ++ sub ++ post

/-- The keys of a tree from left to right. -/
def inorder : node → List tag
  | node.null => []
  | node.mk k l r => inorder l ++ k :: inorder r

/-- A `twalk` action with the filter of `writefile` and `writex` that notes
the tag it is called on. -/
def note (t : tag) (v : VISIT) (_level : Nat) (seen : List tag) : List tag :=
  if v ≠ VISIT.postorder ∧ v ≠ VISIT.leaf then seen else seen ++ [t]

/-- The tags that `twalk`, filtered to the `postorder` and `leaf` visits,
reaches in a tree, in the order of the walk. -/
def visited (root : node) : List tag := twalk root note []

/-- The record of a tag in the tag table. -/
def tagline (t : tag) : String :=
  t.id ++ "\t" ++ t.file ++ "\t/^" ++ t.text ++ "$/\n"

/-- The record of a tag in the listing. -/
def listline (t : tag) : String :=
  t.id ++ " " ++ toString t.line ++ " " ++ t.file ++ " " ++ t.text ++ "\n"

/-- Concatenation of strings. -/
def concat : List String → String
  | [] => ""
  | x :: xs => x ++ concat xs

/-- The search-tree shape that `tsearch` relies on for a comparison `c`: the
keys of a left subtree compare below the key of the node, those of a right
subtree above it. -/
def searchTree (c : tag → tag → Int) : node → Prop
  | node.null => True
  | node.mk k l r =>
    (∀ x ∈ inorder l, c x k < 0) ∧ (∀ x ∈ inorder r, 0 < c x k) ∧
      searchTree c l ∧ searchTree c r

/-- A collation: the sign of `coll a b` is a total preorder on strings. -/
structure Collation (coll : String → String → Int) : Prop where
  swap : ∀ a b, coll a b < 0 ↔ 0 < coll b a
  trans : ∀ a b c, coll a b ≤ 0 → coll b c ≤ 0 → coll a c ≤ 0

/-- A sequence of insertions: `addtag` called on the fields of each tag. -/
def addtag_all (ts : List tag) (s : State) : State :=
  ts.foldl (fun s t => addtag t.id t.file t.text t.line s) s

/-- The tags of a sequence that compare unequal to every tag kept before
them. -/
def firsts (c : tag → tag → Int) (ts : List tag) : List tag :=
  ts.foldl (fun kept t => if ∃ k ∈ kept, c t k = 0 then kept else kept ++ [t]) []

/-- The lines of a text: the pieces that its newlines separate. -/
def linesOf : List Char → List (List Char)
  | [] => [[]]
  | c :: cs =>
    if c = '\n' then [] :: linesOf cs
    else
      match linesOf cs with
      | [] => [[c]]
      | l :: ls => (c :: l) :: ls

/-- A file system that holds `content` under `path` and nothing else. -/
def onefile (path content : String) : String → Option String :=
  fun p => if p = path then some content else none

/-- An environment for the examples: the POSIX collation, every path can be
opened, and the buffer of a failed `getline` is empty. -/
def env0 : Env :=
  { ambient := strcmp, readable := fun _ => true, writable := fun _ => true,
    strerror := fun _ => "No such file or directory", junk := fun _ => [] }

/-- The second state has the collation, the two output streams and the file
system of the first: the fields that scanning never writes. -/
def sameStreams (s s1 : State) : Prop :=
  s1.strcoll = s.strcoll ∧ s1.output = s.output ∧ s1.stdout = s.stdout ∧ s1.fs = s.fs

/-- The value of the local variable `filetype` of `addtags` after the
comparisons of the extension: it is still `UNKNOWN` in the branch that
returns 1. -/
def filetype_of (extension : String) : filetype :=
  if strcmp extension ".c" = 0 ∨ strcmp extension ".h" = 0 then filetype.C
  else if strcmp extension ".f" = 0 then filetype.FORTRAN
  else filetype.UNKNOWN

/-- The choice `if (filetype == FORTRAN) checkfline(...) else checkcline(...)`
in the loop of `addtags`. -/
def classify (ft : filetype) (path : String) (text : String) (lineno : Int) (s : State) :
    State :=
  if ft = filetype.FORTRAN then checkfline text lineno path s
  else checkcline text lineno path s

/-- The four names under which the classifiers record tags. -/
def categories : List String := ["FUNCTION", "define", "identifier", "typedef"]

/-- Whether `addtags` gets as far as scanning a path: the suffix from its
last dot is one of the three known ones and the file can be opened. -/
def accepted (env : Env) (fs : String → Option String) (path : String) : Bool :=
  match strrchr path '.' with
  | none => false
  | some extension =>
    (extension = ".c" || extension = ".h" || extension = ".f") &&
      env.readable path && (fs path).isSome

/-- The content of a file with the given lines, each ended by a newline,
followed by a last piece without newline (empty when the file ends with a
newline). -/
def filetext (ls : List (List Char)) (last : List Char) : List Char :=
  match ls with
  | [] => last
  | l :: rest => l ++ '\n' :: filetext rest last

/-- The classifier called on the successive buffers, the first with line
number `lineno + 1`. -/
def feed (ft : filetype) (path : String) : List (List Char) → Int → State → State
  | [], _, s => s
  | buf :: rest, lineno, s =>
    feed ft path rest (lineno + 1) (classify ft path (chop buf) (lineno + 1) s)

/-- The state in which the loop of `main` over the operands starts, once the
options have left `tagsfile` and `append` and the destination, if any, has
been opened. -/
def start (env : Env) (fs : String → Option String) (tagsfile : Option String)
    (append : Bool) : State :=
  match tagsfile with
  | some path =>
    { strcoll := strcmp, tagroot := node.null, output := some "", heap := [], bracket := 0,
      stdout := "", stderr := "",
      fs := Function.update fs path (some (if append then (fs path).getD "" else "")) }
  | none =>
    { strcoll := env.ambient, tagroot := node.null, output := none, heap := [], bracket := 0,
      stdout := "", stderr := "", fs := fs }

/-- The end of `main` after the loop: the walk with the emitter of the mode,
and the end of the process. -/
def finish (tagsfile : Option String) (s : State) : State :=
  match tagsfile with
  | some path => exit (some path) (twalk s.tagroot writefile s)
  | none => exit none (twalk s.tagroot writex s)

/-- The invariant of the store in a run, for the collation `coll`: the tree
is a search tree; every tag of the tree and every tag allocated has one of
the four names; every tag allocated compares equal to a tag of the tree; and
every tag of the tree is the first of its name among the tags allocated. -/
def storeInv (coll : String → String → Int) (s : State) : Prop :=
  s.strcoll = coll ∧ searchTree (compar coll) s.tagroot ∧
    (∀ t ∈ inorder s.tagroot, t.id ∈ categories) ∧
    (∀ h ∈ s.heap, h.id ∈ categories) ∧
    (∀ h ∈ s.heap, ∃ k ∈ inorder s.tagroot, compar coll h k = 0) ∧
    (∀ t ∈ inorder s.tagroot, s.heap.find? (fun x => decide (x.id = t.id)) = some t)

/-- The calls of one classifier on the successive buffers of a file, the
first call with line number `lineno + 1`: each buffer has its last character
overwritten, the line is counted, and the classifier is called. -/
def calls (check : String → Int → String → State → State) (path : String) :
    List (List Char) → Int → State → State
  | [], _, s => s
  | buf :: rest, lineno, s =>
    calls check path rest (lineno + 1) (check (chop buf) (lineno + 1) path s)

/-! ## Strings -/

theorem strstrl_isSome (h n : List Char) : (strstrl h n).isSome = true ↔ n <:+: h := by
  induction h with
  | nil =>
    unfold strstrl
    cases hp : n.isPrefixOf []
    · simp only [Bool.false_eq_true, if_false, Option.isSome_none, false_iff]
      intro hi
      rw [List.infix_nil] at hi
      subst hi
      simp at hp
    · simp only [if_true, Option.isSome_some, true_iff]
      exact (List.isPrefixOf_iff_prefix.mp hp).isInfix
  | cons c cs ih =>
    unfold strstrl
    cases hp : n.isPrefixOf (c :: cs)
    · simp only [Bool.false_eq_true, if_false, ih]
      rw [List.infix_cons_iff]
      constructor
      · intro hi; exact Or.inr hi
      · rintro (hpre | hi)
        · rw [List.isPrefixOf_iff_prefix.mpr hpre] at hp
          exact absurd hp (by simp)
        · exact hi
    · simp only [if_true, Option.isSome_some, true_iff]
      exact (List.isPrefixOf_iff_prefix.mp hp).isInfix

theorem contains_iff_data (text sub : String) : Contains text sub ↔ sub.data <:+: text.data := by
  constructor
  · rintro ⟨pre, post, h⟩
    refine ⟨pre.data, post.data, ?_⟩
    rw [h]; simp [String.data_append]
  · rintro ⟨a, b, h⟩
    refine ⟨⟨a⟩, ⟨b⟩, ?_⟩
    apply String.ext
    simp [String.data_append, h]

theorem strstr_isSome (text sub : String) :
    (strstr text sub).isSome = true ↔ Contains text sub := by
  rw [contains_iff_data, ← strstrl_isSome]
  unfold strstr
  simp

/-! ## The walk -/

theorem twalk_level_fold {σ : Type} (action : tag → VISIT → Nat → σ → σ) (f : tag → σ → σ)
    (hpre : ∀ t l s, action t VISIT.preorder l s = s)
    (hend : ∀ t l s, action t VISIT.endorder l s = s)
    (hpost : ∀ t l s, action t VISIT.postorder l s = f t s)
    (hleaf : ∀ t l s, action t VISIT.leaf l s = f t s) :
    ∀ (root : node) (level : Nat) (s : σ),
      twalk_level action root level s = (inorder root).foldl (fun s t => f t s) s := by
  intro root
  induction root with
  | null => intro level s; rfl
  | mk k l r ihl ihr =>
    intro level s
    cases l with
    | null =>
      cases r with
      | null => simp [twalk_level, inorder, hleaf]
      | mk k2 l2 r2 =>
        simp only [twalk_level, hpre, hend, hpost, ihr]
        simp [inorder]
    | mk k1 l1 r1 =>
      simp only [twalk_level, hpre, hend, hpost, ihr, ihl]
      simp [inorder, List.foldl_append]

theorem visited_eq_inorder (root : node) : visited root = inorder root := by
  unfold visited twalk
  rw [twalk_level_fold note (fun t seen => seen ++ [t])]
  · have : ∀ (ts acc : List tag), ts.foldl (fun s t => s ++ [t]) acc = acc ++ ts := by
      intro ts
      induction ts with
      | nil => intro acc; simp
      | cons a as ih => intro acc; simp [ih]
    simpa using this (inorder root) []
  all_goals intros; simp [note]

/-! ## The store -/

theorem mem_inorder_tsearch (c : tag → tag → Int) (t x : tag) (root : node)
    (h : x ∈ inorder (tsearch c t root)) : x ∈ inorder root ∨ x = t := by
  induction root with
  | null => simpa [tsearch, inorder] using h
  | mk k l r ihl ihr =>
    unfold tsearch at h
    split_ifs at h with h0 h1
    · exact Or.inl h
    · simp only [inorder, List.mem_append, List.mem_cons] at h ⊢
      rcases h with h | h | h
      · rcases ihl h with h | h
        · exact Or.inl (Or.inl h)
        · exact Or.inr h
      · exact Or.inl (Or.inr (Or.inl h))
      · exact Or.inl (Or.inr (Or.inr h))
    · simp only [inorder, List.mem_append, List.mem_cons] at h ⊢
      rcases h with h | h | h
      · exact Or.inl (Or.inl h)
      · exact Or.inl (Or.inr (Or.inl h))
      · rcases ihr h with h | h
        · exact Or.inl (Or.inr (Or.inr h))
        · exact Or.inr h

theorem mem_visited_tsearch (c : tag → tag → Int) (t x : tag) (root : node)
    (h : x ∈ visited (tsearch c t root)) : x ∈ visited root ∨ x = t := by
  rw [visited_eq_inorder] at h ⊢
  exact mem_inorder_tsearch c t x root h

theorem length_inorder_tsearch (c : tag → tag → Int) (t : tag) (root : node) :
    (inorder (tsearch c t root)).length = (inorder root).length ∨
      (inorder (tsearch c t root)).length = (inorder root).length + 1 := by
  induction root with
  | null => simp [tsearch, inorder]
  | mk k l r ihl ihr =>
    unfold tsearch
    split_ifs with h0 h1
    · simp
    · simp only [inorder, List.length_append, List.length_cons]; omega
    · simp only [inorder, List.length_append, List.length_cons]; omega

theorem searchTree_tsearch (c : tag → tag → Int) (t : tag) (root : node)
    (h : searchTree c root) : searchTree c (tsearch c t root) := by
  induction root with
  | null => simp [tsearch, searchTree, inorder]
  | mk k l r ihl ihr =>
    obtain ⟨hl, hr, sl, sr⟩ := h
    unfold tsearch
    split_ifs with h0 h1
    · exact ⟨hl, hr, sl, sr⟩
    · refine ⟨?_, hr, ihl sl, sr⟩
      intro x hx
      rcases mem_inorder_tsearch c t x l hx with hx | hx
      · exact hl x hx
      · rw [hx]; exact h1
    · refine ⟨hl, ?_, sl, ihr sr⟩
      intro x hx
      rcases mem_inorder_tsearch c t x r hx with hx | hx
      · exact hr x hx
      · rw [hx]; omega

/-- The comparison of tags that a collation induces is a total preorder. -/
theorem compar_swap (coll : String → String → Int) (hc : Collation coll) (a b : tag) :
    compar coll a b < 0 ↔ 0 < compar coll b a := hc.swap a.id b.id

theorem compar_trans (coll : String → String → Int) (hc : Collation coll) (a b d : tag)
    (h1 : compar coll a b ≤ 0) (h2 : compar coll b d ≤ 0) : compar coll a d ≤ 0 :=
  hc.trans a.id b.id d.id h1 h2

theorem compar_le_of_swap (coll : String → String → Int) (hc : Collation coll) (a b : tag)
    (h : 0 ≤ compar coll a b) : compar coll b a ≤ 0 := by
  by_contra hn
  have h1 : 0 < compar coll b a := by omega
  have h2 := (compar_swap coll hc a b).mpr h1
  omega

theorem compar_lt_trans (coll : String → String → Int) (hc : Collation coll) (a b d : tag)
    (h1 : compar coll a b < 0) (h2 : compar coll b d < 0) : compar coll a d < 0 := by
  by_contra hn
  have h3 : compar coll d a ≤ 0 := compar_le_of_swap coll hc a d (by omega)
  have h4 : compar coll d b ≤ 0 := compar_trans coll hc d a b h3 (by omega)
  have h5 := (compar_swap coll hc b d).mp h2
  omega

theorem inorder_sorted (coll : String → String → Int) (hc : Collation coll) (root : node)
    (h : searchTree (compar coll) root) :
    (inorder root).Pairwise (fun a b => compar coll a b < 0) := by
  induction root with
  | null => simp [inorder]
  | mk k l r ihl ihr =>
    obtain ⟨hl, hr, sl, sr⟩ := h
    have hkr : ∀ y ∈ inorder r, compar coll k y < 0 :=
      fun y hy => (compar_swap coll hc k y).mpr (hr y hy)
    simp only [inorder]
    rw [List.pairwise_append]
    refine ⟨ihl sl, List.pairwise_cons.mpr ⟨hkr, ihr sr⟩, ?_⟩
    intro x hx y hy
    rcases List.mem_cons.mp hy with hy | hy
    · rw [hy]; exact hl x hx
    · exact compar_lt_trans coll hc x k y (hl x hx) (hkr y hy)

/-- A key that compares equal to a key of the tree is not inserted. -/
theorem tsearch_found (coll : String → String → Int) (hc : Collation coll) (t : tag)
    (root : node) (h : searchTree (compar coll) root)
    (hex : ∃ k ∈ inorder root, compar coll t k = 0) :
    tsearch (compar coll) t root = root := by
  induction root with
  | null => simp [inorder] at hex
  | mk k l r ihl ihr =>
    obtain ⟨hl, hr, sl, sr⟩ := h
    obtain ⟨k0, hk0, he⟩ := hex
    unfold tsearch
    split_ifs with h0 h1
    · rfl
    · have hin : k0 ∈ inorder l := by
        simp only [inorder, List.mem_append, List.mem_cons] at hk0
        rcases hk0 with hk0 | hk0 | hk0
        · exact hk0
        · rw [hk0] at he; exact absurd he h0
        · exfalso
          have h2 : compar coll k0 t ≤ 0 := compar_le_of_swap coll hc t k0 (by omega)
          have h3 := compar_trans coll hc k0 t k h2 (by omega)
          have h4 := hr k0 hk0
          omega
      rw [ihl sl ⟨k0, hin, he⟩]
    · have hin : k0 ∈ inorder r := by
        simp only [inorder, List.mem_append, List.mem_cons] at hk0
        rcases hk0 with hk0 | hk0 | hk0
        · exfalso
          have h2 : compar coll k t ≤ 0 := compar_le_of_swap coll hc t k (by omega)
          have h3 := compar_trans coll hc k t k0 h2 (by omega)
          have h4 := (compar_swap coll hc k0 k).mp (hl k0 hk0)
          omega
        · rw [hk0] at he; exact absurd he h0
        · exact hk0
      rw [ihr sr ⟨k0, hin, he⟩]

/-- A key that compares unequal to every key of the tree is inserted. -/
theorem tsearch_fresh (c : tag → tag → Int) (t : tag) (root : node)
    (hne : ¬ ∃ k ∈ inorder root, c t k = 0) :
    (inorder (tsearch c t root)).Perm (inorder root ++ [t]) := by
  induction root with
  | null => simp [tsearch, inorder]
  | mk k l r ihl ihr =>
    have hk : ¬ c t k = 0 := fun h => hne ⟨k, by simp [inorder], h⟩
    have hnl : ¬ ∃ x ∈ inorder l, c t x = 0 :=
      fun ⟨x, hx, h⟩ => hne ⟨x, by simp [inorder, hx], h⟩
    have hnr : ¬ ∃ x ∈ inorder r, c t x = 0 :=
      fun ⟨x, hx, h⟩ => hne ⟨x, by simp [inorder, hx], h⟩
    unfold tsearch
    rw [if_neg hk]
    split_ifs with h1
    · simp only [inorder]
      have h2 := (ihl hnl).append_right (k :: inorder r)
      refine h2.trans ?_
      rw [List.append_assoc, List.append_assoc]
      exact List.Perm.append_left _ List.perm_append_comm
    · simp only [inorder]
      have h2 := (ihr hnr).cons k
      have h3 := h2.append_left (inorder l)
      refine h3.trans ?_
      rw [List.append_assoc]
      rfl

/-! ## The POSIX collation -/

theorem toNat_ne (a b : Char) (h : a ≠ b) : a.toNat ≠ b.toNat := by
  intro h1
  apply h
  rw [← Char.ofNat_toNat a, ← Char.ofNat_toNat b, h1]

theorem strcmpl_swap : ∀ a b : List Char, strcmpl a b < 0 ↔ 0 < strcmpl b a := by
  intro a
  induction a with
  | nil => intro b; cases b <;> simp [strcmpl]
  | cons x xs ih =>
    intro b
    cases b with
    | nil => simp [strcmpl]
    | cons y ys =>
      by_cases h : x = y
      · subst h; simp [strcmpl, ih]
      · have h1 : ¬ y = x := fun e => h e.symm
        simp only [strcmpl, if_neg h, if_neg h1]
        omega

theorem strcmpl_trans : ∀ a b c : List Char,
    strcmpl a b ≤ 0 → strcmpl b c ≤ 0 → strcmpl a c ≤ 0 := by
  intro a
  induction a with
  | nil => intro b c _ _; cases c <;> simp [strcmpl]
  | cons x xs ih =>
    intro b c hab hbc
    cases b with
    | nil => simp [strcmpl] at hab
    | cons y ys =>
      cases c with
      | nil => simp [strcmpl] at hbc
      | cons z zs =>
        by_cases hxy : x = y
        · subst hxy
          by_cases hxz : x = z
          · subst hxz
            simp only [strcmpl, if_true] at hab hbc ⊢
            exact ih _ _ hab hbc
          · simp only [strcmpl, if_true, if_neg hxz] at hab hbc ⊢
            exact hbc
        · have nxy := toNat_ne x y hxy
          by_cases hyz : y = z
          · subst hyz
            simp only [strcmpl, if_neg hxy] at hab ⊢
            exact hab
          · have nyz := toNat_ne y z hyz
            simp only [strcmpl, if_neg hxy, if_neg hyz] at hab hbc
            have hxz : ¬ x = z := by
              intro e; subst e; omega
            simp only [strcmpl, if_neg hxz]
            omega

theorem strcmp_collation : Collation strcmp :=
  { swap := fun a b => strcmpl_swap a.data b.data
    trans := fun a b c => strcmpl_trans a.data b.data c.data }

/-! ## Sequences of insertions -/

theorem addtag_eq (t : tag) (s : State) :
    addtag t.id t.file t.text t.line s =
      { s with heap := s.heap ++ [t], tagroot := tsearch (compar s.strcoll) t s.tagroot } := rfl

theorem addtag_all_cons (t : tag) (ts : List tag) (s : State) :
    addtag_all (t :: ts) s = addtag_all ts (addtag t.id t.file t.text t.line s) := rfl

theorem addtag_all_heap : ∀ (ts : List tag) (s : State), (addtag_all ts s).heap = s.heap ++ ts := by
  intro ts
  induction ts with
  | nil => intro s; simp [addtag_all]
  | cons t ts ih => intro s; rw [addtag_all_cons, ih, addtag_eq]; simp

theorem addtag_all_strcoll : ∀ (ts : List tag) (s : State),
    (addtag_all ts s).strcoll = s.strcoll := by
  intro ts
  induction ts with
  | nil => intro s; rfl
  | cons t ts ih => intro s; rw [addtag_all_cons, ih, addtag_eq]

theorem addtag_all_searchTree (coll : String → String → Int) : ∀ (ts : List tag) (s : State),
    s.strcoll = coll → searchTree (compar coll) s.tagroot →
      searchTree (compar coll) (addtag_all ts s).tagroot := by
  intro ts
  induction ts with
  | nil => intro s _ h; exact h
  | cons t ts ih =>
    intro s hs h
    rw [addtag_all_cons]
    apply ih
    · rw [addtag_eq]; exact hs
    · rw [addtag_eq]
      simp only [hs]
      exact searchTree_tsearch _ _ _ h

theorem addtag_all_perm (coll : String → String → Int) (hc : Collation coll) :
    ∀ (ts : List tag) (s : State) (kept : List tag),
      s.strcoll = coll → searchTree (compar coll) s.tagroot → (inorder s.tagroot).Perm kept →
        (inorder (addtag_all ts s).tagroot).Perm
          (ts.foldl (fun kept t => if ∃ k ∈ kept, compar coll t k = 0 then kept else kept ++ [t])
            kept) := by
  intro ts
  induction ts with
  | nil => intro s kept _ _ h; exact h
  | cons t ts ih =>
    intro s kept hs hst hp
    rw [addtag_all_cons, List.foldl_cons]
    apply ih
    · rw [addtag_eq]; exact hs
    · rw [addtag_eq]
      simp only [hs]
      exact searchTree_tsearch _ _ _ hst
    · rw [addtag_eq]
      simp only [hs]
      by_cases hex : ∃ k ∈ kept, compar coll t k = 0
      · rw [if_pos hex]
        obtain ⟨k, hk, he⟩ := hex
        rw [tsearch_found coll hc t _ hst ⟨k, hp.mem_iff.mpr hk, he⟩]
        exact hp
      · rw [if_neg hex]
        have hne : ¬ ∃ k ∈ inorder s.tagroot, compar coll t k = 0 :=
          fun ⟨k, hk, he⟩ => hex ⟨k, hp.mem_iff.mp hk, he⟩
        exact (tsearch_fresh _ t _ hne).trans (hp.append_right [t])

theorem firsts_distinct (c : tag → tag → Int) : ∀ (ts kept : List tag),
    (∀ t ∈ ts, ∀ k ∈ kept, c t k ≠ 0) → ts.Pairwise (fun a b => c b a ≠ 0) →
      ts.foldl (fun kept t => if ∃ k ∈ kept, c t k = 0 then kept else kept ++ [t]) kept =
        kept ++ ts := by
  intro ts
  induction ts with
  | nil => intro kept _ _; simp
  | cons t ts ih =>
    intro kept h1 h2
    have hn : ¬ ∃ k ∈ kept, c t k = 0 :=
      fun ⟨k, hk, he⟩ => h1 t (List.mem_cons_self _ _) k hk he
    rw [List.foldl_cons, if_neg hn, ih]
    · simp
    · intro x hx k hk
      rcases List.mem_append.mp hk with hk | hk
      · exact h1 x (List.mem_cons_of_mem _ hx) k hk
      · rw [List.mem_singleton.mp hk]
        exact (List.pairwise_cons.mp h2).1 x hx
    · exact (List.pairwise_cons.mp h2).2

/-! ## What scanning leaves alone -/

theorem sameStreams_checkcline (text : String) (line : Int) (path : String) (s : State) :
    sameStreams s (checkcline text line path s) := by
  unfold checkcline
  dsimp only
  split_ifs <;> exact ⟨rfl, rfl, rfl, rfl⟩

theorem sameStreams_checkfline (text : String) (line : Int) (path : String) (s : State) :
    sameStreams s (checkfline text line path s) := by
  unfold checkfline
  split_ifs <;> exact ⟨rfl, rfl, rfl, rfl⟩

theorem sameStreams_trans (a b c : State) (h1 : sameStreams a b) (h2 : sameStreams b c) :
    sameStreams a c :=
  ⟨h2.1.trans h1.1, h2.2.1.trans h1.2.1, h2.2.2.1.trans h1.2.2.1, h2.2.2.2.trans h1.2.2.2⟩

theorem sameStreams_scan (junk : List Char) (ft : filetype) (path : String) :
    ∀ (fuel : Nat) (f : FILE) (lineno : Int) (s s1 : State),
      scan junk ft path fuel f lineno s = some s1 → sameStreams s s1 := by
  intro fuel
  induction fuel with
  | zero => intro f lineno s s1 h; simp [scan] at h
  | succ n ih =>
    intro f lineno s s1 h
    unfold scan at h
    split_ifs at h with he hf
    · cases h; exact ⟨rfl, rfl, rfl, rfl⟩
    · exact sameStreams_trans _ _ _ (sameStreams_checkfline _ _ _ _) (ih _ _ _ _ h)
    · exact sameStreams_trans _ _ _ (sameStreams_checkcline _ _ _ _) (ih _ _ _ _ h)

theorem sameStreams_addtags (env : Env) (path : String) (s s1 : State) (r : Int)
    (h : addtags env path s = some (r, s1)) : sameStreams s s1 := by
  have key : ∀ ft, addtags.addtags_scan env path s ft = some (r, s1) → sameStreams s s1 := by
    intro ft h
    unfold addtags.addtags_scan at h
    split at h
    · cases h; exact ⟨rfl, rfl, rfl, rfl⟩
    · simp only [Option.map_eq_some'] at h
      obtain ⟨s2, h2, h3⟩ := h
      cases h3
      exact sameStreams_scan _ _ _ _ _ _ _ _ h2
  unfold addtags at h
  split at h
  · cases h; exact ⟨rfl, rfl, rfl, rfl⟩
  · split_ifs at h
    · exact key _ h
    · exact key _ h
    · cases h; exact ⟨rfl, rfl, rfl, rfl⟩

theorem sameStreams_addall (env : Env) : ∀ (paths : List String) (r : Int) (s : State)
    (r1 : Int) (s1 : State), addall env paths r s = some (r1, s1) → sameStreams s s1 := by
  intro paths
  induction paths with
  | nil => intro r s r1 s1 h; simp only [addall] at h; cases h; exact ⟨rfl, rfl, rfl, rfl⟩
  | cons p ps ih =>
    intro r s r1 s1 h
    unfold addall at h
    split at h
    · cases h
    · next r2 s2 h2 =>
      exact sameStreams_trans _ _ _ (sameStreams_addtags env p s s2 r2 h2) (ih _ _ _ _ h)

/-! ## The emitters -/

theorem concat_append (xs ys : List String) : concat (xs ++ ys) = concat xs ++ concat ys := by
  induction xs with
  | nil => simp [concat]
  | cons x xs ih => simp [concat, ih, String.append_assoc]

theorem twalk_writefile (root : node) (s : State) :
    twalk root writefile s =
      { s with output := s.output.map (fun w => w ++ concat ((visited root).map tagline)) } := by
  rw [visited_eq_inorder]
  unfold twalk
  rw [twalk_level_fold writefile
    (fun t s => { s with output := s.output.map (fun w => w ++ tagline t) })]
  · generalize inorder root = ts
    induction ts generalizing s with
    | nil =>
      cases s with
      | mk a b o d e f g h => cases o <;> simp [concat]
    | cons t ts ih =>
      rw [List.foldl_cons, ih]
      cases s with
      | mk a b o d e f g h => cases o <;> simp [concat, String.append_assoc]
  all_goals intros; simp [writefile, tagline]

theorem twalk_writex (root : node) (s : State) :
    twalk root writex s =
      { s with stdout := s.stdout ++ concat ((visited root).map listline) } := by
  rw [visited_eq_inorder]
  unfold twalk
  rw [twalk_level_fold writex (fun t s => { s with stdout := s.stdout ++ listline t })]
  · generalize inorder root = ts
    induction ts generalizing s with
    | nil => simp [concat]
    | cons t ts ih =>
      rw [List.foldl_cons, ih]
      simp [concat, String.append_assoc]
  all_goals intros; simp [writex, listline, fmt_d, String.append_assoc]

/-! ## Reading lines -/

theorem splitline_append : ∀ l : List Char, (splitline l).1 ++ (splitline l).2 = l := by
  intro l
  induction l with
  | nil => rfl
  | cons c cs ih =>
    unfold splitline
    split_ifs
    · rfl
    · simp [ih]

theorem splitline_length (c : Char) (cs : List Char) :
    (splitline (c :: cs)).2.length < (c :: cs).length := by
  have h := congrArg List.length (splitline_append (c :: cs))
  have h1 : 0 < (splitline (c :: cs)).1.length := by
    unfold splitline
    split_ifs <;> simp
  rw [List.length_append] at h
  omega

theorem getline_nil (junk : List Char) (f : FILE) (h : f.rest = []) :
    getline junk f = (junk, { rest := [], eof := true }) := by
  unfold getline
  rw [h]

theorem getline_cons (junk : List Char) (f : FILE) (c : Char) (cs : List Char)
    (h : f.rest = c :: cs) :
    (getline junk f).1 = (splitline (c :: cs)).1 ∧
      (getline junk f).2.rest = (splitline (c :: cs)).2 := by
  unfold getline
  rw [h]
  dsimp only
  split_ifs <;> exact ⟨rfl, rfl⟩

/-- The number of turns that the loop needs at most. -/
theorem turns_nil (junk : List Char) (f : FILE) (n : Nat) (hr : f.rest = [])
    (he : f.eof = false) (h : f.rest.length + (if f.eof = true then 1 else 2) ≤ n + 1) :
    (getline junk f).2.rest.length + (if (getline junk f).2.eof = true then 1 else 2) ≤ n := by
  rw [getline_nil junk f hr]
  rw [hr, he] at h
  simp at h ⊢
  omega

theorem turns_cons (junk : List Char) (f : FILE) (n : Nat) (c : Char) (cs : List Char)
    (hr : f.rest = c :: cs) (he : f.eof = false)
    (h : f.rest.length + (if f.eof = true then 1 else 2) ≤ n + 1) :
    (getline junk f).2.rest.length + (if (getline junk f).2.eof = true then 1 else 2) ≤ n := by
  rw [(getline_cons junk f c cs hr).2]
  have h1 := splitline_length c cs
  rw [hr, he] at h
  simp only [Bool.false_eq_true, if_false] at h
  split_ifs <;> omega

/-- The loop ends within the turns that `addtags` allows it. -/
theorem scan_total (junk : List Char) (ft : filetype) (path : String) :
    ∀ (fuel : Nat) (f : FILE) (lineno : Int) (s : State),
      f.rest.length + (if f.eof = true then 1 else 2) ≤ fuel →
        ∃ s1, scan junk ft path fuel f lineno s = some s1 := by
  intro fuel
  induction fuel with
  | zero => intro f lineno s h; split_ifs at h <;> omega
  | succ n ih =>
    intro f lineno s h
    unfold scan
    cases he : f.eof with
    | true => simp [feof, he]
    | false =>
      simp only [feof, he, if_false, Bool.false_eq_true]
      apply ih
      cases hr : f.rest with
      | nil => exact turns_nil junk f n hr he h
      | cons c cs => exact turns_cons junk f n c cs hr he h

theorem chop_data_within (buf : List Char) : (chop buf).data <:+: buf := by
  unfold chop cstr
  exact ((List.take_prefix _ _).trans (List.takeWhile_prefix _)).isInfix

theorem checkfline_quiet (text : String) (line : Int) (path : String) (s : State)
    (h : ¬ Contains text "FUNCTION") : checkfline text line path s = s := by
  have h1 : ¬ ((strstr text "FUNCTION").isSome = true) :=
    fun h2 => h ((strstr_isSome _ _).mp h2)
  unfold checkfline
  simp only [h1, if_false, Bool.false_eq_true]

/-- A FORTRAN-like scan over text without "FUNCTION" changes nothing. -/
theorem scan_fortran_quiet (junk : List Char) (path : String)
    (hj : ¬ Contains (String.mk junk) "FUNCTION") :
    ∀ (fuel : Nat) (f : FILE) (lineno : Int) (s : State),
      f.rest.length + (if f.eof = true then 1 else 2) ≤ fuel →
        ¬ Contains (String.mk f.rest) "FUNCTION" →
          scan junk filetype.FORTRAN path fuel f lineno s = some s := by
  intro fuel
  induction fuel with
  | zero => intro f lineno s h; split_ifs at h <;> omega
  | succ n ih =>
    intro f lineno s h hc
    unfold scan
    cases he : f.eof with
    | true => simp [feof, he]
    | false =>
      simp only [feof, he, if_false, Bool.false_eq_true, if_true]
      have hq : ∀ buf : List Char, buf <:+: junk ∨ buf <:+: f.rest →
          ¬ Contains (String.mk buf) "FUNCTION" := by
        intro buf hb hcon
        rw [contains_iff_data] at hcon
        rcases hb with hb | hb
        · exact hj ((contains_iff_data _ _).mpr (hcon.trans hb))
        · exact hc ((contains_iff_data _ _).mpr (hcon.trans hb))
      cases hr : f.rest with
      | nil =>
        have hin : (getline junk f).1 <:+: junk := by
          rw [getline_nil junk f hr]
        rw [checkfline_quiet _ _ _ _ (hq _ (Or.inl ((chop_data_within _).trans hin)))]
        apply ih
        · exact turns_nil junk f n hr he h
        · rw [getline_nil junk f hr]
          exact hq [] (Or.inl List.nil_infix)
      | cons c cs =>
        obtain ⟨h1, h2⟩ := getline_cons junk f c cs hr
        have hpre : (getline junk f).1 <:+: f.rest := by
          rw [h1, hr]
          exact ⟨[], (splitline (c :: cs)).2, by simpa using splitline_append (c :: cs)⟩
        have hsuf : (getline junk f).2.rest <:+: f.rest := by
          rw [h2, hr]
          exact ⟨(splitline (c :: cs)).1, [], by simpa using splitline_append (c :: cs)⟩
        rw [checkfline_quiet _ _ _ _ (hq _ (Or.inr ((chop_data_within _).trans hpre)))]
        apply ih
        · exact turns_cons junk f n c cs hr he h
        · exact hq _ (Or.inr hsuf)

/-! ## Lines -/

theorem linesOf_ne_nil : ∀ l : List Char, linesOf l ≠ [] := by
  intro l
  cases l with
  | nil => simp [linesOf]
  | cons c cs =>
    unfold linesOf
    split_ifs
    · simp
    · split <;> simp

theorem linesOf_cons (c : Char) (cs l0 : List Char) (ls : List (List Char)) (hc : c ≠ '\n')
    (h : linesOf cs = l0 :: ls) : linesOf (c :: cs) = (c :: l0) :: ls := by
  rw [linesOf, if_neg hc, h]

theorem prefix_line (needle : List Char) (hn : '\n' ∉ needle) :
    ∀ content : List Char, needle <+: content →
      ∃ l ls, linesOf content = l :: ls ∧ needle <+: l := by
  induction needle with
  | nil =>
    intro content _
    cases h : linesOf content with
    | nil => exact absurd h (linesOf_ne_nil content)
    | cons l ls => exact ⟨l, ls, rfl, List.nil_prefix⟩
  | cons n ns ih =>
    intro content hp
    cases content with
    | nil => simp at hp
    | cons c cs =>
      obtain ⟨e, hp1⟩ := List.cons_prefix_cons.mp hp
      subst e
      have hne : n ≠ '\n' := fun e => hn (by rw [e]; exact List.mem_cons_self _ _)
      obtain ⟨l0, ls, h1, h2⟩ := ih (fun h => hn (List.mem_cons_of_mem _ h)) cs hp1
      exact ⟨n :: l0, ls, linesOf_cons n cs l0 ls hne h1, List.cons_prefix_cons.mpr ⟨rfl, h2⟩⟩

/-- A text without newline that occurs in the content occurs in one line. -/
theorem infix_line (needle : List Char) (hn : '\n' ∉ needle) :
    ∀ content : List Char, needle <:+: content → ∃ l ∈ linesOf content, needle <:+: l := by
  intro content
  induction content with
  | nil =>
    intro h
    exact ⟨[], by simp [linesOf], h⟩
  | cons c cs ih =>
    intro h
    rcases List.infix_cons_iff.mp h with h | h
    · obtain ⟨l, ls, h1, h2⟩ := prefix_line needle hn (c :: cs) h
      exact ⟨l, by rw [h1]; exact List.mem_cons_self _ _, h2.isInfix⟩
    · obtain ⟨l, hl, h2⟩ := ih h
      by_cases hc : c = '\n'
      · refine ⟨l, ?_, h2⟩
        rw [linesOf, if_pos hc]
        exact List.mem_cons_of_mem _ hl
      · cases h3 : linesOf cs with
        | nil => exact absurd h3 (linesOf_ne_nil cs)
        | cons l0 ls =>
          rw [linesOf_cons c cs l0 ls hc h3]
          rw [h3] at hl
          rcases List.mem_cons.mp hl with hl | hl
          · subst hl
            exact ⟨c :: l, List.mem_cons_self _ _, List.infix_cons h2⟩
          · exact ⟨l, List.mem_cons_of_mem _ hl, h2⟩

/-! ## The scanner -/

theorem addtags_c (env : Env) (path content : String) (s : State)
    (hx : strrchr path '.' = some ".c" ∨ strrchr path '.' = some ".h")
    (hf : fopen_r env path s = some content) :
    addtags env path s =
      (scan (env.junk path) filetype.C path (content.data.length + 2)
        { rest := content.data, eof := false } 0 s).map (fun s1 => (0, s1)) := by
  unfold addtags
  rcases hx with hx | hx
  · rw [hx]
    have h1 : strcmp ".c" ".c" = 0 ∨ strcmp ".c" ".h" = 0 := by decide
    simp only [h1, if_true, addtags.addtags_scan, hf]
  · rw [hx]
    have h1 : strcmp ".h" ".c" = 0 ∨ strcmp ".h" ".h" = 0 := by decide
    simp only [h1, if_true, addtags.addtags_scan, hf]

theorem addtags_f (env : Env) (path content : String) (s : State)
    (hx : strrchr path '.' = some ".f") (hf : fopen_r env path s = some content) :
    addtags env path s =
      (scan (env.junk path) filetype.FORTRAN path (content.data.length + 2)
        { rest := content.data, eof := false } 0 s).map (fun s1 => (0, s1)) := by
  unfold addtags
  rw [hx]
  have h1 : ¬ (strcmp ".f" ".c" = 0 ∨ strcmp ".f" ".h" = 0) := by decide
  have h2 : strcmp ".f" ".f" = 0 := by decide
  simp only [h1, h2, if_true, if_false, addtags.addtags_scan, hf]

/-- The function `addtags` returns on every path. -/
theorem addtags_total (env : Env) (path : String) (s : State) :
    ∃ r s1, addtags env path s = some (r, s1) := by
  have key : ∀ ft, ∃ r s1, addtags.addtags_scan env path s ft = some (r, s1) := by
    intro ft
    unfold addtags.addtags_scan
    split
    · exact ⟨_, _, rfl⟩
    · next content _ =>
      obtain ⟨s1, h1⟩ := scan_total (env.junk path) ft path (content.data.length + 2)
        { rest := content.data, eof := false } 0 s (by simp)
      exact ⟨0, s1, by rw [h1]; rfl⟩
  unfold addtags
  split
  · exact ⟨_, _, rfl⟩
  · split_ifs
    · exact key _
    · exact key _
    · exact ⟨_, _, rfl⟩

theorem addall_total (env : Env) : ∀ (paths : List String) (r : Int) (s : State),
    ∃ r1 s1, addall env paths r s = some (r1, s1) := by
  intro paths
  induction paths with
  | nil => intro r s; exact ⟨r, s, rfl⟩
  | cons p ps ih =>
    intro r s
    obtain ⟨r2, s2, h2⟩ := addtags_total env p s
    obtain ⟨r1, s1, h1⟩ := ih (Int.lor r r2) s2
    exact ⟨r1, s1, by rw [addall, h2]; exact h1⟩

/-! ## The run -/

theorem tagline_eq (t : tag) :
    tagline t = t.id ++ "\t" ++ t.file ++ "\t" ++ "/^" ++ t.text ++ "$/" ++ "\n" := by
  have h1 : "\t/^" = "\t" ++ "/^" := by decide
  have h2 : "$/\n" = "$/" ++ "\n" := by decide
  unfold tagline
  rw [h1, h2]
  simp only [String.append_assoc]

/-- A run in tag-table mode: `main` returns, and what it has written to
`output` is the records of the visited tags. -/
theorem main_table (env : Env) (opts : List (Char × String)) (operands : List String)
    (fs : String → Option String) (path : String) (append : Bool)
    (ho : getopts opts (some "tags", false) = some (some path, append))
    (hne : operands ≠ []) (hw : env.writable path = true) :
    ∃ r s1, main env opts operands fs = some (r, s1) ∧
      s1.output = some (concat ((visited s1.tagroot).map tagline)) ∧ s1.stdout = "" := by
  unfold main fopen_w
  simp only [ho, hne, hw, if_true, if_false]
  split
  · next h =>
    obtain ⟨r, s3, h3⟩ := addall_total env operands 0 _
    rw [h3] at h
    cases h
  · next r s3 h3 =>
    obtain ⟨_, h5, h6, _⟩ := sameStreams_addall env _ _ _ _ _ h3
    refine ⟨r, _, rfl, ?_, ?_⟩
    · rw [twalk_writefile]
      simp only [exit, h5]
      simp [init]
    · rw [twalk_writefile]
      simp only [exit, h5]
      simp [h6, init]

/-- A run in listing mode: `main` returns, and what it has written to the
standard output is the records of the visited tags. -/
theorem main_listing (env : Env) (opts : List (Char × String)) (operands : List String)
    (fs : String → Option String) (append : Bool)
    (ho : getopts opts (some "tags", false) = some (none, append))
    (hne : operands ≠ []) :
    ∃ r s1, main env opts operands fs = some (r, s1) ∧
      s1.stdout = concat ((visited s1.tagroot).map listline) ∧ s1.output = none := by
  unfold main
  simp only [ho, hne, if_false]
  split
  · next h =>
    obtain ⟨r, s3, h3⟩ := addall_total env operands 0 _
    rw [h3] at h
    cases h
  · next r s3 h3 =>
    obtain ⟨_, h5, h6, _⟩ := sameStreams_addall env _ _ _ _ _ h3
    refine ⟨r, _, rfl, ?_, ?_⟩
    · rw [twalk_writex]
      simp only [exit]
      simp [h6, init]
    · rw [twalk_writex]
      simp only [exit]
      simp [h5, init]

/-! ## The line classifiers -/

theorem addtag_heap (id file text : String) (line : Int) (s : State) :
    (addtag id file text line s).heap =
      s.heap ++ [{ id := id, file := file, text := text, line := line }] := rfl

theorem addtag_tagroot (id file text : String) (line : Int) (s : State) :
    (addtag id file text line s).tagroot =
      tsearch (compar s.strcoll) { id := id, file := file, text := text, line := line }
        s.tagroot := rfl

theorem addtag_bracket (id file text : String) (line : Int) (s : State) :
    (addtag id file text line s).bracket = s.bracket := rfl

theorem mem_visited_addtag (id file text : String) (line : Int) (s : State) (t : tag)
    (h : t ∈ visited (addtag id file text line s).tagroot) :
    t ∈ visited s.tagroot ∨ t = { id := id, file := file, text := text, line := line } :=
  mem_visited_tsearch _ _ _ _ h

/-- The reset `if (line == 1) bracket = 0` at the head of `checkcline`. -/
theorem reset_eq (line : Int) (s : State) (hb : s.bracket = 0) :
    (if line = 1 then { s with bracket := 0 } else s) = s := by
  split_ifs
  · cases s; simp_all
  · rfl

theorem checkcline_bracket (text : String) (line : Int) (path : String) (s : State)
    (hb : s.bracket = 0) : (checkcline text line path s).bracket = 0 := by
  unfold checkcline
  simp only [reset_eq line s hb]
  split_ifs <;> simp [addtag_bracket, hb]

theorem checkfline_bracket (text : String) (line : Int) (path : String) (s : State)
    (hb : s.bracket = 0) : (checkfline text line path s).bracket = 0 := by
  unfold checkfline
  split_ifs <;> simp [addtag_bracket, hb]

theorem scan_bracket (junk : List Char) (ft : filetype) (path : String) :
    ∀ (fuel : Nat) (f : FILE) (lineno : Int) (s s1 : State), s.bracket = 0 →
      scan junk ft path fuel f lineno s = some s1 → s1.bracket = 0 := by
  intro fuel
  induction fuel with
  | zero => intro f lineno s s1 _ h; simp [scan] at h
  | succ n ih =>
    intro f lineno s s1 hb h
    unfold scan at h
    split_ifs at h with he hf
    · cases h; exact hb
    · exact ih _ _ _ _ (checkfline_bracket _ _ _ _ hb) h
    · exact ih _ _ _ _ (checkcline_bracket _ _ _ _ hb) h

theorem addtags_bracket (env : Env) (path : String) (s s1 : State) (r : Int)
    (hb : s.bracket = 0) (h : addtags env path s = some (r, s1)) : s1.bracket = 0 := by
  have key : ∀ ft, addtags.addtags_scan env path s ft = some (r, s1) → s1.bracket = 0 := by
    intro ft h
    unfold addtags.addtags_scan at h
    split at h
    · cases h; exact hb
    · simp only [Option.map_eq_some'] at h
      obtain ⟨s2, h2, h3⟩ := h
      cases h3
      exact scan_bracket _ _ _ _ _ _ _ _ hb h2
  unfold addtags at h
  split at h
  · cases h; exact hb
  · split_ifs at h
    · exact key _ h
    · exact key _ h
    · cases h; exact hb

/-- The three ways of `checkcline` when `bracket` is zero. -/
theorem checkcline_cases (text : String) (line : Int) (path : String) (s : State)
    (hb : s.bracket = 0) :
    (Contains text "#define " ∧ checkcline text line path s = addtag "define" path text line s) ∨
    (¬ Contains text "#define " ∧ Contains text "typedef" ∧
      checkcline text line path s = addtag "typedef" path text line s) ∨
    (¬ Contains text "#define " ∧ ¬ Contains text "typedef" ∧
      checkcline text line path s = addtag "identifier" path text line s) := by
  unfold checkcline
  simp only [reset_eq line s hb, hb, if_true]
  by_cases hd : Contains text "#define "
  · left
    exact ⟨hd, by simp only [(strstr_isSome _ _).mpr hd, if_true]⟩
  · have hd1 : ¬ ((strstr text "#define ").isSome = true) :=
      fun h => hd ((strstr_isSome _ _).mp h)
    right
    by_cases ht : Contains text "typedef"
    · left
      exact ⟨hd, ht, by simp only [hd1, (strstr_isSome _ _).mpr ht, if_true, if_false,
        Bool.false_eq_true]⟩
    · have ht1 : ¬ ((strstr text "typedef").isSome = true) :=
        fun h => ht ((strstr_isSome _ _).mp h)
      right
      exact ⟨hd, ht, by simp only [hd1, ht1, if_false, Bool.false_eq_true]⟩

/-- The four lines of the example file, scanned: what is left is the turn
of the loop after the last line. -/
theorem scan_example (junk : List Char) (o : Option String) (hp : List tag) (so se : String)
    (fs : String → Option String) :
    scan junk filetype.C "a.c" ("#define X 1\nint main() \x7b\nreturn 0;\n\x7d\n".data.length + 2)
        { rest := "#define X 1\nint main() \x7b\nreturn 0;\n\x7d\n".data, eof := false } 0
        { strcoll := strcmp, tagroot := node.null, output := o, heap := hp, bracket := 0,
          stdout := so, stderr := se, fs := fs } =
      some (checkcline (chop junk) 5 "a.c"
        { strcoll := strcmp,
          tagroot := node.mk { id := "define", file := "a.c", text := "#define X 1", line := 1 }
            node.null
            (node.mk { id := "identifier", file := "a.c", text := "int main() \x7b", line := 2 }
              node.null node.null),
          output := o,
          heap := hp ++ [{ id := "define", file := "a.c", text := "#define X 1", line := 1 }] ++
            [{ id := "identifier", file := "a.c", text := "int main() \x7b", line := 2 }] ++
            [{ id := "identifier", file := "a.c", text := "return 0;", line := 3 }] ++
            [{ id := "identifier", file := "a.c", text := "\x7d", line := 4 }],
          bracket := 0, stdout := so, stderr := se, fs := fs }) := by
  rfl

theorem visited_addtag_fresh (id file text : String) (line : Int) (s : State)
    (h : ¬ ∃ k ∈ visited s.tagroot,
      compar s.strcoll { id := id, file := file, text := text, line := line } k = 0) :
    (visited (addtag id file text line s).tagroot).Perm
      (visited s.tagroot ++ [{ id := id, file := file, text := text, line := line }]) := by
  rw [visited_eq_inorder] at h ⊢
  rw [visited_eq_inorder, addtag_tagroot]
  exact tsearch_fresh _ _ _ h

/-- Under a collation, an insertion into a search tree that holds a tag of an
equal name leaves the tree as it is. -/
theorem addtag_found (id file text : String) (line : Int) (s : State)
    (hc : Collation s.strcoll) (hs : searchTree (compar s.strcoll) s.tagroot)
    (h : ∃ k ∈ visited s.tagroot,
      compar s.strcoll { id := id, file := file, text := text, line := line } k = 0) :
    (addtag id file text line s).tagroot = s.tagroot := by
  rw [visited_eq_inorder] at h
  rw [addtag_tagroot]
  exact tsearch_found s.strcoll hc _ s.tagroot hs h

theorem firsts_sublist (c : tag → tag → Int) : ∀ (ts kept : List tag),
    (ts.foldl (fun kept t => if ∃ k ∈ kept, c t k = 0 then kept else kept ++ [t]) kept).Sublist
      (kept ++ ts) := by
  intro ts
  induction ts with
  | nil => intro kept; simp
  | cons t ts ih =>
    intro kept
    rw [List.foldl_cons]
    split_ifs
    · exact (ih kept).trans
        (List.Sublist.append_left (List.sublist_cons_self t ts) kept)
    · have h := ih (kept ++ [t])
      rw [List.append_assoc] at h
      exact h

theorem scan_fortran_heap (junk : List Char) (path : String) :
    ∀ (fuel : Nat) (f : FILE) (n : Int) (s s1 : State),
      scan junk filetype.FORTRAN path fuel f n s = some s1 →
        ∃ new : List tag, s1.heap = s.heap ++ new ∧ ∀ t ∈ new, t.id = "FUNCTION" := by
  intro fuel
  induction fuel with
  | zero => intro f n s s1 h; simp [scan] at h
  | succ k ih =>
    intro f n s s1 h
    unfold scan at h
    simp only [if_true] at h
    split_ifs at h with he
    · cases h; exact ⟨[], by simp, by simp⟩
    · obtain ⟨new, hn, hall⟩ := ih _ _ _ _ h
      unfold checkfline at hn
      split_ifs at hn
      · rw [addtag_heap, List.append_assoc] at hn
        refine ⟨_, hn, ?_⟩
        intro t ht
        rcases List.mem_append.mp ht with h1 | h1
        · rw [List.mem_singleton.mp h1]
        · exact hall t h1
      · exact ⟨new, hn, hall⟩

/-! ## The extension -/

theorem strcmpl_eq_zero : ∀ a b : List Char, strcmpl a b = 0 ↔ a = b := by
  intro a
  induction a with
  | nil => intro b; cases b <;> simp [strcmpl]
  | cons x xs ih =>
    intro b
    cases b with
    | nil => simp [strcmpl]
    | cons y ys =>
      by_cases h : x = y
      · subst h; simp [strcmpl, ih]
      · have h1 := toNat_ne x y h
        simp only [strcmpl, if_neg h, List.cons.injEq, h, false_and, iff_false]
        intro h2
        rw [if_neg not_false] at h2
        apply h1
        have h3 : (x.toNat : Int) = (y.toNat : Int) := by omega
        exact_mod_cast h3

theorem strcmp_eq_zero (a b : String) : strcmp a b = 0 ↔ a = b := by
  unfold strcmp
  rw [strcmpl_eq_zero]
  exact ⟨fun h => String.ext h, fun h => by rw [h]⟩

theorem strrchrl_none (c : Char) : ∀ l : List Char, c ∉ l → strrchrl c l = none := by
  intro l
  induction l with
  | nil => intro _; rfl
  | cons x xs ih =>
    intro h
    have h1 : c ∉ xs := fun h2 => h (List.mem_cons_of_mem _ h2)
    have h2 : ¬ x = c := fun h2 => h (by rw [h2]; exact List.mem_cons_self _ _)
    rw [strrchrl, ih h1]
    simp [h2]

theorem strrchrl_last (c : Char) (rest : List Char) (hr : c ∉ rest) :
    ∀ pre : List Char, strrchrl c (pre ++ c :: rest) = some (c :: rest) := by
  intro pre
  induction pre with
  | nil =>
    simp only [List.nil_append]
    rw [strrchrl, strrchrl_none c rest hr]
    simp
  | cons x xs ih =>
    simp only [List.cons_append]
    rw [strrchrl, ih]

theorem strrchr_last (path : String) (pre rest : List Char)
    (hp : path.data = pre ++ '.' :: rest) (hr : '.' ∉ rest) :
    strrchr path '.' = some (String.mk ('.' :: rest)) := by
  unfold strrchr
  rw [hp, strrchrl_last '.' rest hr pre]
  rfl

/-- The function `addtags` by the value of its variable `filetype`. -/
theorem addtags_filetype (env : Env) (path extension : String) (s : State)
    (hx : strrchr path '.' = some extension) :
    addtags env path s =
      match filetype_of extension with
      | filetype.C => addtags.addtags_scan env path s filetype.C
      | filetype.FORTRAN => addtags.addtags_scan env path s filetype.FORTRAN
      | filetype.UNKNOWN =>
        some (1, { s with stderr := s.stderr ++
          "ctags: Don't know how to process files with extension '" ++ extension ++ "'\n" }) := by
  unfold addtags filetype_of
  rw [hx]
  dsimp only
  split_ifs <;> rfl

theorem filetype_of_C (extension : String) :
    filetype_of extension = filetype.C ↔ extension = ".c" ∨ extension = ".h" := by
  unfold filetype_of
  split_ifs with h1 h2
  · rw [strcmp_eq_zero, strcmp_eq_zero] at h1
    simp [h1]
  · rw [strcmp_eq_zero, strcmp_eq_zero] at h1
    simp [h1]
  · rw [strcmp_eq_zero, strcmp_eq_zero] at h1
    simp [h1]

theorem filetype_of_FORTRAN (extension : String) :
    filetype_of extension = filetype.FORTRAN ↔ extension = ".f" := by
  unfold filetype_of
  split_ifs with h1 h2
  · rw [strcmp_eq_zero, strcmp_eq_zero] at h1
    rcases h1 with h1 | h1 <;> simp [h1]
  · rw [strcmp_eq_zero] at h2
    simp [h2]
  · rw [strcmp_eq_zero] at h2
    simp [h2]

/-- One turn of the loop of `addtags`. -/
theorem scan_succ (junk : List Char) (ft : filetype) (path : String) (fuel : Nat) (f : FILE)
    (lineno : Int) (s : State) :
    scan junk ft path (fuel + 1) f lineno s =
      if feof f = true then some s
      else scan junk ft path fuel (getline junk f).2 (lineno + 1)
        (classify ft path (chop (getline junk f).1) (lineno + 1) s) := rfl

theorem strrchrl_mem (c : Char) : ∀ l : List Char, strrchrl c l = none → c ∉ l := by
  intro l
  induction l with
  | nil => intro _; simp
  | cons x xs ih =>
    intro h
    rw [strrchrl] at h
    cases hr : strrchrl c xs with
    | some r => rw [hr] at h; cases h
    | none =>
      rw [hr] at h
      have hx : ¬ x = c := by
        intro e
        rw [if_pos e] at h
        cases h
      intro hm
      rcases List.mem_cons.mp hm with hm | hm
      · exact hx hm.symm
      · exact ih hr hm

theorem strrchr_mem (path : String) (h : strrchr path '.' = none) : '.' ∉ path.data := by
  apply strrchrl_mem
  unfold strrchr at h
  cases hr : strrchrl '.' path.data with
  | none => rfl
  | some r => rw [hr] at h; cases h

/-- The four ways through `addtags`. -/
theorem addtags_cases (env : Env) (path : String) (s : State) :
    ('.' ∉ path.data ∧
      addtags env path s = some (1, { s with stderr := s.stderr ++
        "ctags: Don't know how to process files without an extension (" ++ path ++ ")\n" })) ∨
    (∃ extension, strrchr path '.' = some extension ∧
      extension ≠ ".c" ∧ extension ≠ ".h" ∧ extension ≠ ".f" ∧
      addtags env path s = some (1, { s with stderr := s.stderr ++
        "ctags: Don't know how to process files with extension '" ++ extension ++ "'\n" })) ∨
    (∃ extension, strrchr path '.' = some extension ∧
      (extension = ".c" ∨ extension = ".h" ∨ extension = ".f") ∧
      fopen_r env path s = none ∧
      addtags env path s = some (1, { s with stderr := s.stderr ++
        "ctags: Couldn't open " ++ path ++ ": " ++ env.strerror path ++ "\n" })) ∨
    (∃ extension content, strrchr path '.' = some extension ∧
      (extension = ".c" ∨ extension = ".h" ∨ extension = ".f") ∧
      fopen_r env path s = some content ∧
      addtags env path s =
        (scan (env.junk path) (filetype_of extension) path (content.data.length + 2)
          { rest := content.data, eof := false } 0 s).map (fun s1 => (0, s1))) := by
  cases hx : strrchr path '.' with
  | none =>
    left
    refine ⟨strrchr_mem path hx, ?_⟩
    unfold addtags
    rw [hx]
  | some extension =>
    right
    have he := addtags_filetype env path extension s hx
    cases hft : filetype_of extension with
    | UNKNOWN =>
      left
      rw [hft] at he
      have hc := (filetype_of_C extension).not.mp (by rw [hft]; decide)
      have hf := (filetype_of_FORTRAN extension).not.mp (by rw [hft]; decide)
      exact ⟨extension, rfl, fun h => hc (Or.inl h), fun h => hc (Or.inr h), hf, he⟩
    | C =>
      right
      rw [hft] at he
      have hc := (filetype_of_C extension).mp hft
      have hc3 : extension = ".c" ∨ extension = ".h" ∨ extension = ".f" := by
        rcases hc with h | h
        · exact Or.inl h
        · exact Or.inr (Or.inl h)
      cases hfo : fopen_r env path s with
      | none =>
        left
        refine ⟨extension, rfl, hc3, rfl, ?_⟩
        rw [he]; unfold addtags.addtags_scan; rw [hfo]
      | some content =>
        right
        refine ⟨extension, content, rfl, hc3, rfl, ?_⟩
        rw [he]; unfold addtags.addtags_scan; rw [hfo, hft]
    | FORTRAN =>
      right
      rw [hft] at he
      have hf := (filetype_of_FORTRAN extension).mp hft
      cases hfo : fopen_r env path s with
      | none =>
        left
        refine ⟨extension, rfl, Or.inr (Or.inr hf), rfl, ?_⟩
        rw [he]; unfold addtags.addtags_scan; rw [hfo]
      | some content =>
        right
        refine ⟨extension, content, rfl, Or.inr (Or.inr hf), rfl, ?_⟩
        rw [he]; unfold addtags.addtags_scan; rw [hfo, hft]

/-! ## Invariants of scanning -/

theorem classify_inv (P : State → Prop) (path : String)
    (hadd : ∀ id text line s, id ∈ categories → P s → P (addtag id path text line s))
    (hbr : ∀ s, P s → P { s with bracket := 0 })
    (ft : filetype) (text : String) (lineno : Int) (s : State) (h : P s) :
    P (classify ft path text lineno s) := by
  unfold classify
  split_ifs
  · unfold checkfline
    split_ifs
    · exact hadd _ _ _ _ (by decide) h
    · exact h
  · unfold checkcline
    have h1 : P (if lineno = 1 then { s with bracket := 0 } else s) := by
      split_ifs
      · exact hbr s h
      · exact h
    dsimp only
    revert h1
    generalize (if lineno = 1 then ({ s with bracket := 0 } : State) else s) = s0
    intro h1
    split_ifs
    · exact hadd _ _ _ _ (by decide) h1
    · exact hadd _ _ _ _ (by decide) h1
    · exact hadd _ _ _ _ (by decide) h1
    · exact h1

theorem scan_inv (P : State → Prop) (path : String)
    (hadd : ∀ id text line s, id ∈ categories → P s → P (addtag id path text line s))
    (hbr : ∀ s, P s → P { s with bracket := 0 })
    (junk : List Char) (ft : filetype) :
    ∀ (fuel : Nat) (f : FILE) (lineno : Int) (s s1 : State), P s →
      scan junk ft path fuel f lineno s = some s1 → P s1 := by
  intro fuel
  induction fuel with
  | zero => intro f lineno s s1 _ h; simp [scan] at h
  | succ n ih =>
    intro f lineno s s1 hs h
    rw [scan_succ] at h
    split_ifs at h
    · cases h; exact hs
    · exact ih _ _ _ _ (classify_inv P path hadd hbr ft _ _ s hs) h

/-- A property of the state that every insertion of a scan of an accepted
path keeps, and that the diagnostics and the reset of `bracket` do not touch,
holds after `addtags`. -/
theorem addtags_inv (P : State → Prop) (env : Env) (path : String) (s s1 : State) (r : Int)
    (hadd : accepted env s.fs path = true →
      ∀ id text line s, id ∈ categories → P s → P (addtag id path text line s))
    (hbr : ∀ s, P s → P { s with bracket := 0 })
    (herr : ∀ s e, P s → P { s with stderr := e })
    (hs : P s) (h : addtags env path s = some (r, s1)) : P s1 := by
  rcases addtags_cases env path s with ⟨_, e⟩ | ⟨_, _, _, _, _, e⟩ | ⟨_, _, _, _, e⟩ |
    ⟨extension, content, hx, hc, hfo, e⟩
  · rw [e] at h; cases h; exact herr s _ hs
  · rw [e] at h; cases h; exact herr s _ hs
  · rw [e] at h; cases h; exact herr s _ hs
  · rw [e] at h
    simp only [Option.map_eq_some'] at h
    obtain ⟨s2, h2, h3⟩ := h
    cases h3
    have hacc : accepted env s.fs path = true := by
      unfold accepted
      rw [hx]
      unfold fopen_r at hfo
      by_cases hr : env.readable path = true
      · rw [if_pos hr] at hfo
        simp only [hr, hfo, Bool.and_true, Option.isSome_some, Bool.or_eq_true,
          decide_eq_true_eq]
        rcases hc with h | h | h
        · exact Or.inl (Or.inl h)
        · exact Or.inl (Or.inr h)
        · exact Or.inr h
      · rw [if_neg hr] at hfo; cases hfo
    exact scan_inv P path (hadd hacc) hbr _ _ _ _ _ _ _ hs h2

theorem addall_inv (P : State → Prop) (env : Env)
    (hbr : ∀ s, P s → P { s with bracket := 0 })
    (herr : ∀ s e, P s → P { s with stderr := e }) :
    ∀ (paths : List String) (r : Int) (s : State) (r1 : Int) (s1 : State),
      (∀ p ∈ paths, accepted env s.fs p = true →
        ∀ id text line s, id ∈ categories → P s → P (addtag id p text line s)) →
      P s → addall env paths r s = some (r1, s1) → P s1 := by
  intro paths
  induction paths with
  | nil => intro r s r1 s1 _ hs h; simp only [addall] at h; cases h; exact hs
  | cons p ps ih =>
    intro r s r1 s1 hadd hs h
    unfold addall at h
    split at h
    · cases h
    · next r2 s2 h2 =>
      have hfs : s2.fs = s.fs := (sameStreams_addtags env p s s2 r2 h2).2.2.2
      apply ih _ s2 r1 s1 _ _ h
      · intro q hq
        rw [hfs]
        exact hadd q (List.mem_cons_of_mem _ hq)
      · exact addtags_inv P env p s s2 r2 (hadd p (List.mem_cons_self _ _)) hbr herr hs h2

/-- The function `main` past the option loop and the opening of the
destination: the loop over the operands, then the walk. -/
theorem main_run (env : Env) (opts : List (Char × String)) (operands : List String)
    (fs : String → Option String) (tagsfile : Option String) (append : Bool)
    (ho : getopts opts (some "tags", false) = some (tagsfile, append))
    (hne : operands ≠ [])
    (hw : ∀ path, tagsfile = some path → env.writable path = true) :
    main env opts operands fs =
      (addall env operands 0 (start env fs tagsfile append)).map
        (fun x => (x.1, finish tagsfile x.2)) := by
  unfold main
  simp only [ho, hne, if_false]
  cases tagsfile with
  | none =>
    simp only [start, finish, init]
    generalize addall env operands 0 _ = res
    cases res <;> rfl
  | some path =>
    have hw1 := hw path rfl
    simp only [fopen_w, hw1, if_true, start, finish, init]
    generalize addall env operands 0 _ = res
    cases res <;> rfl

theorem exit_fields (tagsfile : Option String) (s : State) :
    (exit tagsfile s).heap = s.heap ∧ (exit tagsfile s).tagroot = s.tagroot ∧
      (exit tagsfile s).strcoll = s.strcoll ∧ (exit tagsfile s).stderr = s.stderr ∧
      (exit tagsfile s).stdout = s.stdout ∧ (exit tagsfile s).output = s.output := by
  obtain ⟨c, t, o, hp, b, so, se, fs⟩ := s
  cases tagsfile <;> cases o <;> exact ⟨rfl, rfl, rfl, rfl, rfl, rfl⟩

theorem finish_fields (tagsfile : Option String) (s : State) :
    (finish tagsfile s).heap = s.heap ∧ (finish tagsfile s).tagroot = s.tagroot ∧
      (finish tagsfile s).strcoll = s.strcoll ∧ (finish tagsfile s).stderr = s.stderr := by
  cases tagsfile with
  | none =>
    unfold finish
    obtain ⟨h1, h2, h3, h4, _⟩ := exit_fields none (twalk s.tagroot writex s)
    rw [h1, h2, h3, h4, twalk_writex]
    exact ⟨rfl, rfl, rfl, rfl⟩
  | some path =>
    unfold finish
    obtain ⟨h1, h2, h3, h4, _⟩ := exit_fields (some path) (twalk s.tagroot writefile s)
    rw [h1, h2, h3, h4, twalk_writefile]
    exact ⟨rfl, rfl, rfl, rfl⟩

/-- A run in listing mode: the listing is on the standard output, no stream
to a tag table exists and the file system is as it was. -/
theorem main_listing_fs (env : Env) (opts : List (Char × String)) (operands : List String)
    (fs : String → Option String) (append : Bool)
    (ho : getopts opts (some "tags", false) = some (none, append))
    (hne : operands ≠ []) :
    ∃ r s1, main env opts operands fs = some (r, s1) ∧
      s1.stdout = concat ((visited s1.tagroot).map listline) ∧ s1.output = none ∧
      s1.fs = fs := by
  obtain ⟨r, s2, h⟩ := addall_total env operands 0 (start env fs none append)
  obtain ⟨_, h5, h6, h7⟩ := sameStreams_addall env _ _ _ _ _ h
  refine ⟨r, finish none s2, ?_, ?_, ?_, ?_⟩
  · rw [main_run env opts operands fs none append ho hne (fun _ h => by cases h), h]
    rfl
  · simp only [finish, exit, twalk_writex, h6, start]
    simp
  · simp only [finish, exit, twalk_writex, h5, start]
  · simp only [finish, exit, twalk_writex, h7, start]

/-- A run in tag-table mode: nothing is on the standard output, and the
destination holds what it held when it was opened (nothing, unless `append`)
followed by the records of the run. -/
theorem main_table_fs (env : Env) (opts : List (Char × String)) (operands : List String)
    (fs : String → Option String) (path : String) (append : Bool)
    (ho : getopts opts (some "tags", false) = some (some path, append))
    (hne : operands ≠ []) (hw : env.writable path = true) :
    ∃ r s1, main env opts operands fs = some (r, s1) ∧
      s1.stdout = "" ∧
      s1.output = some (concat ((visited s1.tagroot).map tagline)) ∧
      s1.fs = Function.update fs path
        (some ((if append = true then (fs path).getD "" else "") ++
          concat ((visited s1.tagroot).map tagline))) := by
  obtain ⟨r, s2, h⟩ := addall_total env operands 0 (start env fs (some path) append)
  obtain ⟨_, h5, h6, h7⟩ := sameStreams_addall env _ _ _ _ _ h
  have ht : (finish (some path) s2).tagroot = s2.tagroot := (finish_fields _ _).2.1
  have ho2 : s2.output = some "" := by rw [h5]; rfl
  have hso : s2.stdout = "" := by rw [h6]; rfl
  have hfs : s2.fs = Function.update fs path
      (some (if append = true then (fs path).getD "" else "")) := by rw [h7]; rfl
  have hfin : finish (some path) s2 =
      { s2 with
        output := some (concat ((visited s2.tagroot).map tagline)),
        fs := Function.update fs path
          (some ((if append = true then (fs path).getD "" else "") ++
            concat ((visited s2.tagroot).map tagline))) } := by
    unfold finish
    rw [twalk_writefile]
    obtain ⟨c, t, o, hp, b, so, se, f⟩ := s2
    simp only at ho2 hfs
    subst ho2 hfs
    simp [exit]
  refine ⟨r, finish (some path) s2, ?_, ?_, ?_, ?_⟩
  · rw [main_run env opts operands fs (some path) append ho hne
      (fun p hp => by cases hp; exact hw), h]
    rfl
  · rw [hfin]; exact hso
  · rw [ht, hfin]
  · rw [ht, hfin]

/-! ## The options -/

theorem getopts_append : ∀ (o1 o2 : List (Char × String)) (v : Option String × Bool),
    getopts (o1 ++ o2) v = (getopts o1 v).bind (getopts o2) := by
  intro o1
  induction o1 with
  | nil => intro o2 v; rfl
  | cons o os ih =>
    intro o2 v
    obtain ⟨c, optarg⟩ := o
    obtain ⟨tagsfile, append⟩ := v
    simp only [List.cons_append, getopts]
    split_ifs
    · exact ih _ _
    · exact ih _ _
    · exact ih _ _
    · rfl

theorem getopts_valid : ∀ (o1 : List (Char × String)) (v : Option String × Bool),
    (∀ o ∈ o1, o.1 = 'a' ∨ o.1 = 'f' ∨ o.1 = 'x') → ∃ v1, getopts o1 v = some v1 := by
  intro o1
  induction o1 with
  | nil => intro v _; exact ⟨v, rfl⟩
  | cons o os ih =>
    intro v h
    obtain ⟨c, optarg⟩ := o
    obtain ⟨tagsfile, append⟩ := v
    have hc := h (c, optarg) (List.mem_cons_self _ _)
    have hos : ∀ o ∈ os, o.1 = 'a' ∨ o.1 = 'f' ∨ o.1 = 'x' :=
      fun o ho => h o (List.mem_cons_of_mem _ ho)
    simp only [getopts]
    split_ifs with h1 h2 h3
    · exact ih _ hos
    · exact ih _ hos
    · exact ih _ hos
    · rcases hc with hc | hc | hc
      · exact absurd hc h1
      · exact absurd hc h2
      · exact absurd hc h3

theorem getopts_only_a : ∀ (o2 : List (Char × String)) (tagsfile : Option String)
    (append : Bool), (∀ o ∈ o2, o.1 = 'a') →
      ∃ append1, getopts o2 (tagsfile, append) = some (tagsfile, append1) := by
  intro o2
  induction o2 with
  | nil => intro tagsfile append _; exact ⟨append, rfl⟩
  | cons o os ih =>
    intro tagsfile append h
    obtain ⟨c, optarg⟩ := o
    have hc : c = 'a' := h (c, optarg) (List.mem_cons_self _ _)
    subst hc
    simp only [getopts, if_true]
    exact ih tagsfile true (fun o ho => h o (List.mem_cons_of_mem _ ho))

/-- The last of the options -f and -x decides. -/
theorem getopts_last (o1 o2 : List (Char × String)) (c : Char) (optarg : String)
    (h1 : ∀ o ∈ o1, o.1 = 'a' ∨ o.1 = 'f' ∨ o.1 = 'x') (h2 : ∀ o ∈ o2, o.1 = 'a') :
    (c = 'x' → ∃ append, getopts (o1 ++ (c, optarg) :: o2) (some "tags", false) =
      some (none, append)) ∧
    (c = 'f' → ∃ append, getopts (o1 ++ (c, optarg) :: o2) (some "tags", false) =
      some (some optarg, append)) := by
  obtain ⟨⟨t1, a1⟩, hv⟩ := getopts_valid o1 (some "tags", false) h1
  rw [getopts_append, hv]
  constructor
  · intro hc
    subst hc
    obtain ⟨a2, ha⟩ := getopts_only_a o2 none a1 h2
    exact ⟨a2, by simp only [Option.some_bind, getopts]; exact ha⟩
  · intro hc
    subst hc
    obtain ⟨a2, ha⟩ := getopts_only_a o2 (some optarg) a1 h2
    exact ⟨a2, by simp only [Option.some_bind, getopts]; exact ha⟩

/-! ## Scanning and the file system -/

theorem classify_fs (ft : filetype) (path text : String) (lineno : Int) (s : State)
    (g : String → Option String) :
    classify ft path text lineno { s with fs := g } =
      { classify ft path text lineno s with fs := g } := by
  simp only [classify, checkfline, checkcline, addtag]
  split_ifs <;> rfl

theorem scan_fs (junk : List Char) (ft : filetype) (path : String)
    (g : String → Option String) :
    ∀ (fuel : Nat) (f : FILE) (lineno : Int) (s : State),
      scan junk ft path fuel f lineno { s with fs := g } =
        (scan junk ft path fuel f lineno s).map (fun x => { x with fs := g }) := by
  intro fuel
  induction fuel with
  | zero => intro f lineno s; rfl
  | succ n ih =>
    intro f lineno s
    rw [scan_succ, scan_succ]
    split_ifs
    · rfl
    · rw [classify_fs, ih]

/-- The function `addtags` reads the file system at its path only. -/
theorem addtags_fs (env : Env) (path : String) (s : State) (g : String → Option String)
    (hg : g path = s.fs path) :
    addtags env path { s with fs := g } =
      (addtags env path s).map (fun x => (x.1, { x.2 with fs := g })) := by
  have hfo : fopen_r env path { s with fs := g } = fopen_r env path s := by
    unfold fopen_r
    simp only [hg]
  have key : ∀ ft, addtags.addtags_scan env path { s with fs := g } ft =
      (addtags.addtags_scan env path s ft).map (fun x => (x.1, { x.2 with fs := g })) := by
    intro ft
    unfold addtags.addtags_scan
    rw [hfo]
    cases fopen_r env path s with
    | none => rfl
    | some content =>
      simp only [scan_fs, Option.map_map]
      rfl
  unfold addtags
  cases strrchr path '.' with
  | none => rfl
  | some extension =>
    simp only
    split_ifs
    · exact key _
    · exact key _
    · rfl

theorem addall_fs (env : Env) (g : String → Option String) :
    ∀ (paths : List String) (r : Int) (s : State), (∀ p ∈ paths, g p = s.fs p) →
      addall env paths r { s with fs := g } =
        (addall env paths r s).map (fun x => (x.1, { x.2 with fs := g })) := by
  intro paths
  induction paths with
  | nil => intro r s _; rfl
  | cons p ps ih =>
    intro r s hg
    unfold addall
    rw [addtags_fs env p s g (hg p (List.mem_cons_self _ _))]
    cases h : addtags env p s with
    | none => rfl
    | some x =>
      obtain ⟨r2, s2⟩ := x
      have hfs : s2.fs = s.fs := (sameStreams_addtags env p s s2 r2 h).2.2.2
      simp only [Option.map_some']
      exact ih _ s2 (fun q hq => by rw [hfs]; exact hg q (List.mem_cons_of_mem _ hq))

theorem finish_fs_other (path p : String) (s : State) (hp : p ≠ path) :
    (finish (some path) s).fs p = s.fs p := by
  unfold finish
  rw [twalk_writefile]
  obtain ⟨c, t, o, h, b, so, se, f⟩ := s
  cases o
  · rfl
  · simp [exit, Function.update_noteq hp]

/-- A second run, appending to the destination that a first run has
written, over operands that the destination is not one of, builds the tree of
the first run. -/
theorem main_table_again (env : Env) (opts opts2 : List (Char × String))
    (operands : List String) (fs : String → Option String) (path : String)
    (append : Bool) (r : Int) (s1 : State)
    (ho : getopts opts (some "tags", false) = some (some path, append))
    (ho2 : getopts opts2 (some "tags", false) = some (some path, true))
    (hne : operands ≠ []) (hw : env.writable path = true) (hp : path ∉ operands)
    (h : main env opts operands fs = some (r, s1)) :
    ∃ s2, main env opts2 operands s1.fs = some (r, s2) ∧ s2.tagroot = s1.tagroot := by
  have hw1 : ∀ p, some path = some p → env.writable p = true :=
    fun p hp => by cases hp; exact hw
  rw [main_run env opts operands fs (some path) append ho hne hw1] at h
  simp only [Option.map_eq_some'] at h
  obtain ⟨⟨r1, t1⟩, h1, h2⟩ := h
  cases h2
  rw [main_run env opts2 operands _ (some path) true ho2 hne hw1]
  have hst : start env (finish (some path) t1).fs (some path) true =
      { start env fs (some path) append with
        fs := (start env (finish (some path) t1).fs (some path) true).fs } := rfl
  have hfs : t1.fs = (start env fs (some path) append).fs :=
    (sameStreams_addall env _ _ _ _ _ h1).2.2.2
  rw [hst, addall_fs env _ operands 0 _ ?_, h1]
  · refine ⟨_, rfl, ?_⟩
    rw [(finish_fields _ _).2.1, (finish_fields _ _).2.1]
  · intro p hpo
    have hne2 : p ≠ path := fun e => hp (by rw [← e]; exact hpo)
    simp only [start, Function.update_noteq hne2]
    rw [finish_fs_other path p t1 hne2, hfs]
    simp only [start, Function.update_noteq hne2]

/-! ## The loop, line by line -/

theorem splitline_line : ∀ (l tail : List Char), '\n' ∉ l →
    splitline (l ++ '\n' :: tail) = (l ++ ['\n'], tail) := by
  intro l
  induction l with
  | nil => intro tail _; simp [splitline]
  | cons c cs ih =>
    intro tail h
    have hc : ¬ c = '\n' := fun e => h (by rw [e]; exact List.mem_cons_self _ _)
    have hcs : '\n' ∉ cs := fun h1 => h (List.mem_cons_of_mem _ h1)
    show splitline (c :: (cs ++ '\n' :: tail)) = (c :: (cs ++ ['\n']), tail)
    rw [splitline, if_neg hc, ih tail hcs]

theorem splitline_last : ∀ l : List Char, '\n' ∉ l → splitline l = (l, []) := by
  intro l
  induction l with
  | nil => intro _; rfl
  | cons c cs ih =>
    intro h
    have hc : ¬ c = '\n' := fun e => h (by rw [e]; exact List.mem_cons_self _ _)
    have hcs : '\n' ∉ cs := fun h1 => h (List.mem_cons_of_mem _ h1)
    simp only [splitline, if_neg hc, ih hcs, List.cons]

/-- What `getline` reads of a line that ends with a newline: the line and
its newline; the end-of-file indicator stays as it is. -/
theorem getline_line (junk l tail : List Char) (e : Bool) (h : '\n' ∉ l) :
    getline junk { rest := l ++ '\n' :: tail, eof := e } =
      (l ++ ['\n'], { rest := tail, eof := e }) := by
  have hs := splitline_line l tail h
  cases hl : l ++ '\n' :: tail with
  | nil => cases l <;> simp at hl
  | cons c cs =>
    rw [hl] at hs
    unfold getline
    simp only [hs]
    simp

/-- What `getline` reads of a last line without newline: the line; the
end-of-file indicator is set. -/
theorem getline_last (junk last : List Char) (h0 : last ≠ []) (h : '\n' ∉ last) :
    getline junk { rest := last, eof := false } = (last, { rest := [], eof := true }) := by
  have hs := splitline_last last h
  cases hl : last with
  | nil => exact absurd hl h0
  | cons c cs =>
    rw [hl] at hs h
    unfold getline
    simp only [hs]
    have hg : (c :: cs).getLast? ≠ some '\n' := by
      intro e
      exact h (List.mem_of_getLast?_eq_some e)
    simp [hg]

theorem chop_cstr (buf : List Char) : chop buf = String.mk (cstr buf).dropLast := by
  unfold chop strlen
  rw [List.dropLast_eq_take]

theorem cstr_self (buf : List Char) (h : '\x00' ∉ buf) : cstr buf = buf := by
  unfold cstr
  rw [List.takeWhile_eq_self_iff]
  intro c hc
  simp only [ne_eq, decide_eq_true_eq]
  intro e
  exact h (by rw [← e]; exact hc)

theorem chop_line (l : List Char) (h : '\x00' ∉ l) : chop (l ++ ['\n']) = String.mk l := by
  have h1 : '\x00' ∉ l ++ ['\n'] := by
    intro hm
    rcases List.mem_append.mp hm with hm | hm
    · exact h hm
    · simp at hm
  rw [chop_cstr, cstr_self _ h1, List.dropLast_concat]

theorem feed_append (ft : filetype) (path : String) : ∀ (bs : List (List Char)) (b : List Char)
    (n : Int) (s : State),
    feed ft path (bs ++ [b]) n s =
      classify ft path (chop b) (n + bs.length + 1) (feed ft path bs n s) := by
  intro bs
  induction bs with
  | nil => intro b n s; simp [feed]
  | cons x xs ih =>
    intro b n s
    show feed ft path (x :: (xs ++ [b])) n s = _
    rw [feed, ih, feed]
    congr 1
    simp only [List.length_cons]
    push_cast
    ring

theorem feed_bracket (ft : filetype) (path : String) : ∀ (bs : List (List Char)) (n : Int)
    (s : State), s.bracket = 0 → (feed ft path bs n s).bracket = 0 := by
  intro bs
  induction bs with
  | nil => intro n s h; exact h
  | cons x xs ih =>
    intro n s h
    simp only [feed]
    apply ih
    unfold classify
    split_ifs
    · exact checkfline_bracket _ _ _ _ h
    · exact checkcline_bracket _ _ _ _ h

theorem filetext_length (l : List Char) (rest : List (List Char)) (last : List Char) :
    (filetext (l :: rest) last).length = l.length + 1 + (filetext rest last).length := by
  simp [filetext]
  omega

/-- The loop over a file given by its lines: the classifier is called on
each line with its newline, and once more, on the last piece when the file
does not end with a newline, on the buffer of the failed `getline` when it
does. -/
theorem scan_filetext (junk : List Char) (ft : filetype) (path : String) (last : List Char)
    (hlast : '\n' ∉ last) :
    ∀ (ls : List (List Char)) (fuel : Nat) (n : Int) (s : State), (∀ l ∈ ls, '\n' ∉ l) →
      (filetext ls last).length + 2 ≤ fuel →
        scan junk ft path fuel { rest := filetext ls last, eof := false } n s =
          some (feed ft path
            (ls.map (fun l => l ++ ['\n']) ++ [if last = [] then junk else last]) n s) := by
  intro ls
  induction ls with
  | nil =>
    intro fuel n s _ hf
    simp only [filetext] at hf ⊢
    obtain ⟨k, rfl⟩ : ∃ k, fuel = k + 2 := ⟨fuel - 2, by omega⟩
    rw [scan_succ]
    simp only [feof, Bool.false_eq_true, if_false, List.map_nil, List.nil_append, feed]
    by_cases h0 : last = []
    · subst h0
      rw [getline_nil junk _ rfl, scan_succ]
      simp [feof]
    · rw [getline_last junk last h0 hlast, scan_succ]
      simp [feof, h0]
  | cons l rest ih =>
    intro fuel n s hl hf
    rw [filetext_length] at hf
    obtain ⟨k, rfl⟩ : ∃ k, fuel = k + 1 := ⟨fuel - 1, by omega⟩
    have hl1 : '\n' ∉ l := hl l (List.mem_cons_self _ _)
    rw [scan_succ]
    simp only [feof, Bool.false_eq_true, if_false, filetext]
    rw [getline_line junk l _ false hl1,
      ih k (n + 1) _ (fun x hx => hl x (List.mem_cons_of_mem _ hx)) (by omega)]
    simp [feed]

/-! ## The store in a run -/

theorem collation_refl (coll : String → String → Int) (hc : Collation coll) (a : String) :
    coll a a = 0 := by
  have h := hc.swap a a
  omega

theorem storeInv_addtag (coll : String → String → Int) (hc : Collation coll)
    (id file text : String) (line : Int) (s : State) (hid : id ∈ categories)
    (h : storeInv coll s) : storeInv coll (addtag id file text line s) := by
  obtain ⟨h1, h2, h3, h4, h5, h6⟩ := h
  have hmem : ∀ x ∈ inorder (addtag id file text line s).tagroot,
      x ∈ inorder s.tagroot ∨ x = { id := id, file := file, text := text, line := line } := by
    intro x hx
    rw [addtag_tagroot] at hx
    exact mem_inorder_tsearch _ _ _ _ hx
  refine ⟨h1, ?_, ?_, ?_, ?_, ?_⟩
  · rw [addtag_tagroot, h1]
    exact searchTree_tsearch _ _ _ h2
  · intro t ht
    rcases hmem t ht with ht | ht
    · exact h3 t ht
    · rw [ht]; exact hid
  · intro x hx
    rw [addtag_heap] at hx
    rcases List.mem_append.mp hx with hx | hx
    · exact h4 x hx
    · rw [List.mem_singleton.mp hx]; exact hid
  · by_cases hex : ∃ k ∈ inorder s.tagroot,
        compar coll { id := id, file := file, text := text, line := line } k = 0
    · rw [addtag_tagroot, h1, tsearch_found coll hc _ _ h2 hex]
      intro x hx
      rw [addtag_heap] at hx
      rcases List.mem_append.mp hx with hx | hx
      · exact h5 x hx
      · rw [List.mem_singleton.mp hx]; exact hex
    · have hp := tsearch_fresh (compar coll)
        { id := id, file := file, text := text, line := line } s.tagroot hex
      rw [addtag_tagroot, h1]
      intro x hx
      rw [addtag_heap] at hx
      rcases List.mem_append.mp hx with hx | hx
      · obtain ⟨k, hk, hk0⟩ := h5 x hx
        exact ⟨k, hp.mem_iff.mpr (List.mem_append_left _ hk), hk0⟩
      · rw [List.mem_singleton.mp hx]
        exact ⟨_, hp.mem_iff.mpr (List.mem_append_right _ (List.mem_singleton.mpr rfl)),
          collation_refl coll hc id⟩
  · intro t ht
    rw [addtag_heap, List.find?_append]
    rcases hmem t ht with ht1 | ht1
    · rw [h6 t ht1]; rfl
    · by_cases hex : ∃ k ∈ inorder s.tagroot,
          compar coll { id := id, file := file, text := text, line := line } k = 0
      · rw [addtag_tagroot, h1, tsearch_found coll hc _ _ h2 hex] at ht
        rw [h6 t ht]; rfl
      · have hnone : s.heap.find? (fun x => decide (x.id = t.id)) = none := by
          rw [List.find?_eq_none]
          intro x hx hxid
          simp only [decide_eq_true_eq] at hxid
          obtain ⟨k, hk, hk0⟩ := h5 x hx
          apply hex
          refine ⟨k, hk, ?_⟩
          rw [ht1] at hxid
          have hxid1 : x.id = id := hxid
          simp only [compar] at hk0 ⊢
          rw [← hxid1]
          exact hk0
        rw [hnone, ht1]
        simp

theorem storeInv_start (env : Env) (fs : String → Option String) (tagsfile : Option String)
    (append : Bool) :
    storeInv (start env fs tagsfile append).strcoll (start env fs tagsfile append) := by
  cases tagsfile <;>
    exact ⟨rfl, trivial, (fun _ h => by cases h), (fun _ h => by cases h),
      (fun _ h => by cases h), (fun _ h => by cases h)⟩

/-- The invariant of the store holds after the loop of `main`. -/
theorem storeInv_addall (coll : String → String → Int) (hc : Collation coll) (env : Env)
    (paths : List String) (r : Int) (s : State) (r1 : Int) (s1 : State)
    (hs : storeInv coll s) (h : addall env paths r s = some (r1, s1)) : storeInv coll s1 :=
  addall_inv (storeInv coll) env (fun _ h => h) (fun _ _ h => h) paths r s r1 s1
    (fun p _ _ id text line x hid hx => storeInv_addtag coll hc id p text line x hid hx) hs h

theorem start_collation (env : Env) (fs : String → Option String) (tagsfile : Option String)
    (append : Bool) (hc : Collation env.ambient) :
    Collation (start env fs tagsfile append).strcoll := by
  cases tagsfile
  · exact hc
  · exact strcmp_collation

/-- The four names in the POSIX collation. -/
theorem categories_order (x y : String) (hx : x ∈ categories) (hy : y ∈ categories)
    (h : strcmp x y < 0) :
    (x = "FUNCTION" ∧ (y = "define" ∨ y = "identifier" ∨ y = "typedef")) ∨
      (x = "define" ∧ (y = "identifier" ∨ y = "typedef")) ∨
      (x = "identifier" ∧ y = "typedef") := by
  simp only [categories, List.mem_cons, List.mem_singleton, List.not_mem_nil, or_false] at hx hy
  rcases hx with rfl | rfl | rfl | rfl <;> rcases hy with rfl | rfl | rfl | rfl <;>
    first
      | exact absurd h (by decide)
      | decide

/-- The run up to the end of its loop, and the state it ends in. -/
theorem main_loop (env : Env) (opts : List (Char × String)) (operands : List String)
    (fs : String → Option String) (tagsfile : Option String) (append : Bool)
    (ho : getopts opts (some "tags", false) = some (tagsfile, append))
    (hne : operands ≠ [])
    (hw : ∀ path, tagsfile = some path → env.writable path = true) :
    ∃ r s2, addall env operands 0 (start env fs tagsfile append) = some (r, s2) ∧
      main env opts operands fs = some (r, finish tagsfile s2) := by
  obtain ⟨r, s2, h⟩ := addall_total env operands 0 (start env fs tagsfile append)
  refine ⟨r, s2, h, ?_⟩
  rw [main_run env opts operands fs tagsfile append ho hne hw, h]
  rfl

/-- The store after a run. -/
theorem main_store (env : Env) (opts : List (Char × String)) (operands : List String)
    (fs : String → Option String) (tagsfile : Option String) (append : Bool)
    (ho : getopts opts (some "tags", false) = some (tagsfile, append))
    (hne : operands ≠ [])
    (hw : ∀ path, tagsfile = some path → env.writable path = true)
    (hc : Collation (start env fs tagsfile append).strcoll) :
    ∃ r s1, main env opts operands fs = some (r, s1) ∧
      s1.strcoll = (start env fs tagsfile append).strcoll ∧
      (visited s1.tagroot).Pairwise (fun a b => compar s1.strcoll a b < 0) ∧
      (∀ t ∈ visited s1.tagroot, t.id ∈ categories) ∧
      (∀ h ∈ s1.heap, h.id ∈ categories) ∧
      (∀ h ∈ s1.heap, ∃ k ∈ visited s1.tagroot, compar s1.strcoll h k = 0) ∧
      (∀ t ∈ visited s1.tagroot, s1.heap.find? (fun x => decide (x.id = t.id)) = some t) := by
  obtain ⟨r, s2, h, hm⟩ := main_loop env opts operands fs tagsfile append ho hne hw
  obtain ⟨i1, i2, i3, i4, i5, i6⟩ :=
    storeInv_addall _ hc env operands 0 _ r s2 (storeInv_start env fs tagsfile append) h
  obtain ⟨f1, f2, f3, _⟩ := finish_fields tagsfile s2
  refine ⟨r, finish tagsfile s2, hm, ?_, ?_, ?_, ?_, ?_, ?_⟩
  · rw [f3, i1]
  · rw [f2, f3, i1, visited_eq_inorder]
    exact inorder_sorted _ hc _ i2
  · rw [f2, visited_eq_inorder]; exact i3
  · rw [f1]; exact i4
  · rw [f1, f2, f3, i1, visited_eq_inorder]; exact i5
  · rw [f1, f2, visited_eq_inorder]; exact i6

/-! ## The classifier of each file type -/

theorem feed_checkcline (path : String) : ∀ (bs : List (List Char)) (n : Int) (s : State),
    feed filetype.C path bs n s = calls checkcline path bs n s := by
  intro bs
  induction bs with
  | nil => intro n s; rfl
  | cons b bs ih =>
    intro n s
    show feed filetype.C path bs (n + 1) (checkcline (chop b) (n + 1) path s) = _
    rw [ih]
    rfl

theorem feed_checkfline (path : String) : ∀ (bs : List (List Char)) (n : Int) (s : State),
    feed filetype.FORTRAN path bs n s = calls checkfline path bs n s := by
  intro bs
  induction bs with
  | nil => intro n s; rfl
  | cons b bs ih =>
    intro n s
    show feed filetype.FORTRAN path bs (n + 1) (checkfline (chop b) (n + 1) path s) = _
    rw [ih]
    rfl

/-- Every text is a sequence of lines, each ended by a newline, followed by a
last piece without newline. -/
theorem filetext_decompose : ∀ cs : List Char,
    ∃ ls last, cs = filetext ls last ∧ (∀ l ∈ ls, '\n' ∉ l) ∧ '\n' ∉ last := by
  intro cs
  induction cs with
  | nil => exact ⟨[], [], rfl, fun _ h => absurd h (List.not_mem_nil _), List.not_mem_nil _⟩
  | cons c cs ih =>
    obtain ⟨ls, last, h1, h2, h3⟩ := ih
    by_cases hc : c = '\n'
    · refine ⟨[] :: ls, last, ?_, ?_, h3⟩
      · rw [hc, h1]; rfl
      · intro l hl
        rcases List.mem_cons.mp hl with e | hl
        · rw [e]; exact List.not_mem_nil _
        · exact h2 l hl
    · cases ls with
      | nil =>
        refine ⟨[], c :: last, ?_, fun _ h => absurd h (List.not_mem_nil _), ?_⟩
        · rw [h1]; rfl
        · intro hm
          rcases List.mem_cons.mp hm with e | hm
          · exact hc e.symm
          · exact h3 hm
      | cons l ls1 =>
        refine ⟨(c :: l) :: ls1, last, ?_, ?_, h3⟩
        · rw [h1]; rfl
        · intro x hx
          rcases List.mem_cons.mp hx with e | hx
          · rw [e]
            intro hm
            rcases List.mem_cons.mp hm with e1 | hm
            · exact hc e1.symm
            · exact h2 l (List.mem_cons_self _ _) hm
          · exact h2 x (List.mem_cons_of_mem _ hx)

/-- A property that every insertion of a tag of the four names keeps, and the
reset of `bracket` too, is kept by the calls of the classifier on the buffers
of a file. -/
theorem feed_inv (P : State → Prop) (path : String)
    (hadd : ∀ id text line s, id ∈ categories → P s → P (addtag id path text line s))
    (hbr : ∀ s, P s → P { s with bracket := 0 })
    (ft : filetype) : ∀ (bs : List (List Char)) (n : Int) (s : State), P s →
      P (feed ft path bs n s) := by
  intro bs
  induction bs with
  | nil => intro n s h; exact h
  | cons b bs ih =>
    intro n s h
    exact ih _ _ (classify_inv P path hadd hbr ft _ _ s h)

/-- The calls of the classifier keep the collation, and keep the store a
search tree. -/
theorem feed_searchTree (ft : filetype) (path : String) (bs : List (List Char)) (n : Int)
    (s : State) (hs : searchTree (compar s.strcoll) s.tagroot) :
    (feed ft path bs n s).strcoll = s.strcoll ∧
      searchTree (compar s.strcoll) (feed ft path bs n s).tagroot := by
  apply feed_inv (fun x => x.strcoll = s.strcoll ∧ searchTree (compar s.strcoll) x.tagroot) path
    ?_ ?_ ft bs n s ⟨rfl, hs⟩
  · intro id text line x _ hx
    refine ⟨hx.1, ?_⟩
    rw [addtag_tagroot, hx.1]
    exact searchTree_tsearch _ _ _ hx.2
  · intro x hx
    exact hx

theorem feed_strcoll (ft : filetype) (path : String) (bs : List (List Char)) (n : Int)
    (s : State) : (feed ft path bs n s).strcoll = s.strcoll := by
  apply feed_inv (fun x => x.strcoll = s.strcoll) path ?_ ?_ ft bs n s rfl
  · intro id text line x _ hx
    exact hx
  · intro x hx
    exact hx

/-! ## The buffer of the failed read -/

/-- A text whose last piece is empty is empty or ends with a newline. -/
theorem filetext_nil : ∀ ls : List (List Char),
    filetext ls [] = [] ∨ (filetext ls []).getLast? = some '\n' := by
  intro ls
  induction ls with
  | nil => exact Or.inl rfl
  | cons l ls ih =>
    right
    show (l ++ '\n' :: filetext ls []).getLast? = some '\n'
    rcases ih with h | h
    · rw [h]
      simp
    · rw [List.getLast?_append, List.getLast?_cons, h]
      rfl

/-- The loop of `addtags` meets the buffer of a failed `getline` only when
the content is empty or ends with a newline. -/
theorem scan_junk (j1 j2 : List Char) (ft : filetype) (path : String) (content : String)
    (s : State)
    (h : content.data = [] ∨ content.data.getLast? = some '\n' → j2 = j1) :
    scan j2 ft path (content.data.length + 2) { rest := content.data, eof := false } 0 s =
      scan j1 ft path (content.data.length + 2) { rest := content.data, eof := false } 0 s := by
  obtain ⟨ls, last, e1, e2, e3⟩ := filetext_decompose content.data
  by_cases hl : last = []
  · rw [h (by rw [e1, hl]; exact filetext_nil ls)]
  · rw [e1, scan_filetext j2 ft path last e3 ls _ 0 s e2 (le_refl _),
      scan_filetext j1 ft path last e3 ls _ 0 s e2 (le_refl _), if_neg hl, if_neg hl]

/-- The function `addtags` under other characters in the buffer of the failed
read: nothing changes unless the file is scanned and is empty or ends with a
newline. -/
theorem addtags_junk (env : Env) (j2 : String → List Char) (path : String) (s : State)
    (h : ∀ content, s.fs path = some content →
      content.data = [] ∨ content.data.getLast? = some '\n' → j2 path = env.junk path) :
    addtags { env with junk := j2 } path s = addtags env path s := by
  have key : ∀ ft, addtags.addtags_scan { env with junk := j2 } path s ft =
      addtags.addtags_scan env path s ft := by
    intro ft
    unfold addtags.addtags_scan
    have hfo : fopen_r { env with junk := j2 } path s = fopen_r env path s := rfl
    rw [hfo]
    cases hf : fopen_r env path s with
    | none => rfl
    | some content =>
      have hc : s.fs path = some content := by
        unfold fopen_r at hf
        split_ifs at hf
        exact hf
      simp only
      rw [scan_junk (env.junk path) (j2 path) ft path content s (h content hc)]
  unfold addtags
  cases strrchr path '.' with
  | none => rfl
  | some extension =>
    simp only
    split_ifs
    · exact key _
    · exact key _
    · rfl

theorem addall_junk (env : Env) (j2 : String → List Char) :
    ∀ (paths : List String) (r : Int) (s : State),
      (∀ p ∈ paths, ∀ content, s.fs p = some content →
        content.data = [] ∨ content.data.getLast? = some '\n' → j2 p = env.junk p) →
      addall { env with junk := j2 } paths r s = addall env paths r s := by
  intro paths
  induction paths with
  | nil => intro r s _; rfl
  | cons p ps ih =>
    intro r s hj
    unfold addall
    rw [addtags_junk env j2 p s (hj p (List.mem_cons_self _ _))]
    cases h : addtags env p s with
    | none => rfl
    | some x =>
      obtain ⟨r2, s2⟩ := x
      have hfs : s2.fs = s.fs := (sameStreams_addtags env p s s2 r2 h).2.2.2
      simp only
      exact ih _ s2 (fun q hq => by rw [hfs]; exact hj q (List.mem_cons_of_mem _ hq))

/-- A run in tag-table mode under other characters in the buffers of the
failed reads: the run is the same when the destination is not an operand and
the characters are the same for every operand that is empty or ends with a
newline. -/
theorem main_table_junk (env : Env) (j2 : String → List Char) (opts : List (Char × String))
    (operands : List String) (fs : String → Option String) (path : String) (append : Bool)
    (ho : getopts opts (some "tags", false) = some (some path, append))
    (hne : operands ≠ []) (hw : env.writable path = true) (hp : path ∉ operands)
    (hj : ∀ p ∈ operands, ∀ content, fs p = some content →
      content.data = [] ∨ content.data.getLast? = some '\n' → j2 p = env.junk p) :
    main { env with junk := j2 } opts operands fs = main env opts operands fs := by
  have hw1 : ∀ p, some path = some p → env.writable p = true :=
    fun p hp => by cases hp; exact hw
  rw [main_run env opts operands fs (some path) append ho hne hw1,
    main_run { env with junk := j2 } opts operands fs (some path) append ho hne hw1]
  have hst : start { env with junk := j2 } fs (some path) append =
      start env fs (some path) append := rfl
  rw [hst, addall_junk env j2 operands 0 _ ?_]
  intro p hpo content hc
  have hne2 : p ≠ path := fun e => hp (by rw [← e]; exact hpo)
  simp only [start, Function.update_noteq hne2] at hc
  exact hj p hpo content hc

/-! ## The properties -/

/-- C1, as stated, fails: after two insertions under one name the walk visits
one tag, the first; the second insertion is not in the store. -/
theorem addtag_all_duplicate :
    visited (addtag_all
        [{ id := "define", file := "a.c", text := "#define A 1", line := 1 },
         { id := "define", file := "a.c", text := "#define B 2", line := 2 }]
        (init (fun _ => none))).tagroot =
      [{ id := "define", file := "a.c", text := "#define A 1", line := 1 }] ∧
    (visited (addtag_all
        [{ id := "define", file := "a.c", text := "#define A 1", line := 1 },
         { id := "define", file := "a.c", text := "#define B 2", line := 2 }]
        (init (fun _ => none))).tagroot).length ≠
      [({ id := "define", file := "a.c", text := "#define A 1", line := 1 } : tag),
        { id := "define", file := "a.c", text := "#define B 2", line := 2 }].length := by
  decide

/-- C1, amended: for every sequence of insertions into the empty store, under
a collation, the walk visits exactly once each inserted tag whose name
compared unequal to the name of every tag kept before it, and no other tag:
the visited tags are, as a multiset, the tags of `firsts`, a subsequence of
the inserted ones.  When the names of the inserted tags are pairwise unequal,
the visited tags are the inserted ones as a multiset and their number is the
number of insertions. -/
theorem addtag_all_visited (ts : List tag) (s : State) (hc : Collation s.strcoll)
    (hs : s.tagroot = node.null) :
    (visited (addtag_all ts s).tagroot).Perm (firsts (compar s.strcoll) ts) ∧
      (firsts (compar s.strcoll) ts).Sublist ts ∧
      (addtag_all ts s).heap = s.heap ++ ts ∧
      (ts.Pairwise (fun a b => compar s.strcoll b a ≠ 0) →
        (visited (addtag_all ts s).tagroot).Perm ts ∧
          (visited (addtag_all ts s).tagroot).length = ts.length) := by
  have h1 : (visited (addtag_all ts s).tagroot).Perm (firsts (compar s.strcoll) ts) := by
    rw [visited_eq_inorder]
    apply addtag_all_perm s.strcoll hc ts s [] rfl
    · rw [hs]; trivial
    · rw [hs]; exact List.Perm.refl _
  refine ⟨h1, by simpa using firsts_sublist (compar s.strcoll) ts [],
    addtag_all_heap ts s, fun hp => ?_⟩
  have h2 : firsts (compar s.strcoll) ts = ts := by
    unfold firsts
    rw [firsts_distinct _ ts [] (by simp) hp]
    simp
  rw [h2] at h1
  exact ⟨h1, h1.length_eq⟩

theorem addtag_all_visited_witness :
    Collation (init (fun _ => none)).strcoll ∧ (init (fun _ => none)).tagroot = node.null ∧
      (visited (addtag_all
        [{ id := "typedef", file := "a.c", text := "typedef int T;", line := 1 },
         { id := "define", file := "a.c", text := "#define A 1", line := 2 },
         { id := "typedef", file := "a.c", text := "typedef int U;", line := 3 }]
        (init (fun _ => none))).tagroot).Perm
        (firsts (compar (init (fun _ => none)).strcoll)
          [{ id := "typedef", file := "a.c", text := "typedef int T;", line := 1 },
           { id := "define", file := "a.c", text := "#define A 1", line := 2 },
           { id := "typedef", file := "a.c", text := "typedef int U;", line := 3 }]) :=
  ⟨strcmp_collation, rfl,
    (addtag_all_visited
      [{ id := "typedef", file := "a.c", text := "typedef int T;", line := 1 },
       { id := "define", file := "a.c", text := "#define A 1", line := 2 },
       { id := "typedef", file := "a.c", text := "typedef int U;", line := 3 }]
      (init (fun _ => none)) strcmp_collation rfl).1⟩

/-- C2, as stated, fails: the text "#define B 2" contains "#define ", and the
call of the classifier on it in a store that holds a define tag records no
tag, the store is the one before the call.  The listing of the C-like file
with the two lines "#define A 1" and "#define B 22" (the second one
unterminated) has one record, for line 1. -/
theorem checkcline_define_second :
    Contains "#define B 2" "#define " ∧
    visited (checkcline "#define A 1" 1 "a.c" (init (fun _ => none))).tagroot =
      [{ id := "define", file := "a.c", text := "#define A 1", line := 1 }] ∧
    visited (checkcline "#define B 2" 2 "a.c"
        (checkcline "#define A 1" 1 "a.c" (init (fun _ => none)))).tagroot =
      [{ id := "define", file := "a.c", text := "#define A 1", line := 1 }] ∧
    (main env0 [('x', "")] ["a.c"] (onefile "a.c" "#define A 1\n#define B 22")).map
        (fun p => (p.1, p.2.stdout)) =
      some (0, "define 1 a.c #define A 1\n") :=
  ⟨⟨"", "B 2", by decide⟩, by decide⟩

/-- C2, amended: on a text that contains "#define " the classifier of C-like
files issues exactly one insertion, of the tag named define with the path, the
text and the line number of the call; this holds whatever else the text
contains, "typedef" included.  The whole effect of the call is that of one
`addtag` of this tag: one tag object is allocated for it and none for typedef
or identifier, and the store holds afterwards no tag it did not hold before
other than this one.  The store gains this tag when it holds no tag of an
equal name; when it holds one (the store being a search tree under a
collation, as it is throughout a run) it stays as it is and the line is not
recorded. -/
theorem checkcline_define_line (text : String) (line : Int) (path : String) (s : State)
    (h : Contains text "#define ") :
    checkcline text line path s =
        addtag "define" path text line (if line = 1 then { s with bracket := 0 } else s) ∧
      (checkcline text line path s).heap =
        s.heap ++ [{ id := "define", file := path, text := text, line := line }] ∧
      (∀ t ∈ visited (checkcline text line path s).tagroot,
        t ∈ visited s.tagroot ∨
          t = { id := "define", file := path, text := text, line := line }) ∧
      ((¬ ∃ k ∈ visited s.tagroot,
          compar s.strcoll { id := "define", file := path, text := text, line := line } k = 0) →
        (visited (checkcline text line path s).tagroot).Perm
          (visited s.tagroot ++ [{ id := "define", file := path, text := text, line := line }])) ∧
      (Collation s.strcoll → searchTree (compar s.strcoll) s.tagroot →
        (∃ k ∈ visited s.tagroot,
          compar s.strcoll { id := "define", file := path, text := text, line := line } k = 0) →
        (checkcline text line path s).tagroot = s.tagroot) := by
  have e : checkcline text line path s =
      addtag "define" path text line (if line = 1 then { s with bracket := 0 } else s) := by
    unfold checkcline
    simp only [(strstr_isSome text "#define ").mpr h, if_true]
  refine ⟨e, ?_, ?_, ?_, ?_⟩
  · rw [e, addtag_heap]; split_ifs <;> rfl
  · intro t ht
    rw [e] at ht
    rcases mem_visited_addtag _ _ _ _ _ t ht with h1 | h1
    · left; split_ifs at h1 <;> exact h1
    · exact Or.inr h1
  · intro hn
    rw [e]
    split_ifs
    · exact visited_addtag_fresh "define" path text line { s with bracket := 0 } hn
    · exact visited_addtag_fresh "define" path text line s hn
  · intro hc hs hex
    rw [e]
    split_ifs
    · exact addtag_found "define" path text line { s with bracket := 0 } hc hs hex
    · exact addtag_found "define" path text line s hc hs hex

theorem checkcline_define_line_witness :
    Contains "#define typedef_t int" "#define " ∧ Contains "#define typedef_t int" "typedef" ∧
      (checkcline "#define typedef_t int" 7 "a.c" (init (fun _ => none))).heap =
        [{ id := "define", file := "a.c", text := "#define typedef_t int", line := 7 }] ∧
      (checkcline "#define typedef_t int" 7 "a.c"
          { init (fun _ => none) with
            tagroot := node.mk { id := "define", file := "a.c", text := "#define A 1", line := 1 }
              node.null node.null }).tagroot =
        node.mk { id := "define", file := "a.c", text := "#define A 1", line := 1 }
          node.null node.null :=
  ⟨⟨"", "typedef_t int", by decide⟩, ⟨"#define ", "_t int", by decide⟩,
    (checkcline_define_line "#define typedef_t int" 7 "a.c" (init (fun _ => none))
      ⟨"", "typedef_t int", by decide⟩).2.1,
    (checkcline_define_line "#define typedef_t int" 7 "a.c"
      { init (fun _ => none) with
        tagroot := node.mk { id := "define", file := "a.c", text := "#define A 1", line := 1 }
          node.null node.null }
      ⟨"", "typedef_t int", by decide⟩).2.2.2.2 strcmp_collation
      ⟨fun _ h => absurd h (List.not_mem_nil _), fun _ h => absurd h (List.not_mem_nil _),
        trivial, trivial⟩
      ⟨{ id := "define", file := "a.c", text := "#define A 1", line := 1 }, by decide,
        by decide⟩⟩

/-- C3, as stated, fails: the text "typedef int U;" contains "typedef" and no
"#define ", and the call of the classifier on it in a store that holds a
typedef tag records no tag, the store is the one before the call.  The
listing of the C-like file with the two lines "typedef int T;" and
"typedef int U;" (the second one unterminated) has one record, for line 1. -/
theorem checkcline_typedef_second :
    Contains "typedef int U;" "typedef" ∧ ¬ Contains "typedef int U;" "#define " ∧
    visited (checkcline "typedef int T;" 1 "a.h" (init (fun _ => none))).tagroot =
      [{ id := "typedef", file := "a.h", text := "typedef int T;", line := 1 }] ∧
    visited (checkcline "typedef int U;" 2 "a.h"
        (checkcline "typedef int T;" 1 "a.h" (init (fun _ => none)))).tagroot =
      [{ id := "typedef", file := "a.h", text := "typedef int T;", line := 1 }] ∧
    (main env0 [('x', "")] ["a.h"] (onefile "a.h" "typedef int T;\ntypedef int U;")).map
        (fun p => (p.1, p.2.stdout)) =
      some (0, "typedef 1 a.h typedef int T;\n") :=
  ⟨⟨"", " int U;", by decide⟩, fun h => absurd ((strstr_isSome _ _).mpr h) (by decide),
    by decide⟩

/-- C3, amended: on a text that contains "typedef" and does not contain
"#define " the classifier of C-like files issues exactly one insertion, of the
tag named typedef with the path, the text and the line number of the call.
The whole effect of the call is that of one `addtag` of this tag: one tag
object is allocated for it, and the store holds afterwards no tag it did not
hold before other than this one.  The store gains this tag when it holds no
tag of an equal name; when it holds one (the store being a search tree under a
collation, as it is throughout a run) it stays as it is and the line is not
recorded. -/
theorem checkcline_typedef_line (text : String) (line : Int) (path : String) (s : State)
    (ht : Contains text "typedef") (hd : ¬ Contains text "#define ") :
    checkcline text line path s =
        addtag "typedef" path text line (if line = 1 then { s with bracket := 0 } else s) ∧
      (checkcline text line path s).heap =
        s.heap ++ [{ id := "typedef", file := path, text := text, line := line }] ∧
      (∀ t ∈ visited (checkcline text line path s).tagroot,
        t ∈ visited s.tagroot ∨
          t = { id := "typedef", file := path, text := text, line := line }) ∧
      ((¬ ∃ k ∈ visited s.tagroot,
          compar s.strcoll { id := "typedef", file := path, text := text, line := line } k = 0) →
        (visited (checkcline text line path s).tagroot).Perm
          (visited s.tagroot ++ [{ id := "typedef", file := path, text := text, line := line }])) ∧
      (Collation s.strcoll → searchTree (compar s.strcoll) s.tagroot →
        (∃ k ∈ visited s.tagroot,
          compar s.strcoll { id := "typedef", file := path, text := text, line := line } k = 0) →
        (checkcline text line path s).tagroot = s.tagroot) := by
  have hd1 : ¬ ((strstr text "#define ").isSome = true) := fun h => hd ((strstr_isSome _ _).mp h)
  have e : checkcline text line path s =
      addtag "typedef" path text line (if line = 1 then { s with bracket := 0 } else s) := by
    unfold checkcline
    simp only [(strstr_isSome text "typedef").mpr ht, hd1, if_true, if_false,
      Bool.false_eq_true]
  refine ⟨e, ?_, ?_, ?_, ?_⟩
  · rw [e, addtag_heap]; split_ifs <;> rfl
  · intro t h
    rw [e] at h
    rcases mem_visited_addtag _ _ _ _ _ t h with h1 | h1
    · left; split_ifs at h1 <;> exact h1
    · exact Or.inr h1
  · intro hn
    rw [e]
    split_ifs
    · exact visited_addtag_fresh "typedef" path text line { s with bracket := 0 } hn
    · exact visited_addtag_fresh "typedef" path text line s hn
  · intro hc hs hex
    rw [e]
    split_ifs
    · exact addtag_found "typedef" path text line { s with bracket := 0 } hc hs hex
    · exact addtag_found "typedef" path text line s hc hs hex

theorem checkcline_typedef_line_witness :
    Contains "typedef int T;" "typedef" ∧ ¬ Contains "typedef int T;" "#define " ∧
      (checkcline "typedef int T;" 3 "a.h" (init (fun _ => none))).heap =
        [{ id := "typedef", file := "a.h", text := "typedef int T;", line := 3 }] ∧
      (checkcline "typedef int T;" 3 "a.h"
          { init (fun _ => none) with
            tagroot := node.mk { id := "typedef", file := "a.h", text := "typedef int S;", line := 1 }
              node.null node.null }).tagroot =
        node.mk { id := "typedef", file := "a.h", text := "typedef int S;", line := 1 }
          node.null node.null :=
  ⟨⟨"", " int T;", by decide⟩,
    fun h => absurd ((strstr_isSome _ _).mpr h) (by decide),
    (checkcline_typedef_line "typedef int T;" 3 "a.h" (init (fun _ => none))
      ⟨"", " int T;", by decide⟩
      (fun h => absurd ((strstr_isSome _ _).mpr h) (by decide))).2.1,
    (checkcline_typedef_line "typedef int T;" 3 "a.h"
      { init (fun _ => none) with
        tagroot := node.mk { id := "typedef", file := "a.h", text := "typedef int S;", line := 1 }
          node.null node.null }
      ⟨"", " int T;", by decide⟩
      (fun h => absurd ((strstr_isSome _ _).mpr h) (by decide))).2.2.2.2 strcmp_collation
      ⟨fun _ h => absurd h (List.not_mem_nil _), fun _ h => absurd h (List.not_mem_nil _),
        trivial, trivial⟩
      ⟨{ id := "typedef", file := "a.h", text := "typedef int S;", line := 1 }, by decide,
        by decide⟩⟩

/-- C4, as stated, fails: the text "      FUNCTION G(X)" contains "FUNCTION",
and the call of the classifier on it in a store that holds a FUNCTION tag
records no tag, the store is the one before the call.  The listing of the
FORTRAN-like file with the two lines "      FUNCTION F(X)" and
"      FUNCTION G(X)" (the second one unterminated) has one record, for
line 1. -/
theorem checkfline_function_second :
    Contains "      FUNCTION G(X)" "FUNCTION" ∧
    visited (checkfline "      FUNCTION F(X)" 1 "a.f" (init (fun _ => none))).tagroot =
      [{ id := "FUNCTION", file := "a.f", text := "      FUNCTION F(X)", line := 1 }] ∧
    visited (checkfline "      FUNCTION G(X)" 2 "a.f"
        (checkfline "      FUNCTION F(X)" 1 "a.f" (init (fun _ => none)))).tagroot =
      [{ id := "FUNCTION", file := "a.f", text := "      FUNCTION F(X)", line := 1 }] ∧
    (main env0 [('x', "")] ["a.f"]
        (onefile "a.f" "      FUNCTION F(X)\n      FUNCTION G(X)")).map
        (fun p => (p.1, p.2.stdout)) =
      some (0, "FUNCTION 1 a.f       FUNCTION F(X)\n") :=
  ⟨⟨"      ", " G(X)", by decide⟩, by decide⟩

/-- C4, amended: the classifier of FORTRAN-like files issues exactly one
insertion, of the tag named FUNCTION with the path, the text and the line
number of the call, on a text that contains "FUNCTION", and leaves the state
as it is on every other text.  The store gains the tag when it holds no tag of
an equal name; when it holds one (the store being a search tree under a
collation, as it is throughout a run) it stays as it is and the line is not
recorded.  Every tag the classifier allocates is named FUNCTION, whatever
"#define " or "typedef" the text holds, and the same is true of the whole scan
of a file of type FORTRAN, which hands every line to this classifier. -/
theorem checkfline_function (text : String) (line : Int) (path : String) (s : State) :
    (Contains text "FUNCTION" →
        checkfline text line path s = addtag "FUNCTION" path text line s ∧
        (checkfline text line path s).heap =
          s.heap ++ [{ id := "FUNCTION", file := path, text := text, line := line }] ∧
        ((¬ ∃ k ∈ visited s.tagroot, compar s.strcoll
              { id := "FUNCTION", file := path, text := text, line := line } k = 0) →
          (visited (checkfline text line path s).tagroot).Perm (visited s.tagroot ++
            [{ id := "FUNCTION", file := path, text := text, line := line }])) ∧
        (Collation s.strcoll → searchTree (compar s.strcoll) s.tagroot →
          (∃ k ∈ visited s.tagroot, compar s.strcoll
              { id := "FUNCTION", file := path, text := text, line := line } k = 0) →
          (checkfline text line path s).tagroot = s.tagroot)) ∧
      (¬ Contains text "FUNCTION" → checkfline text line path s = s) ∧
      (∀ t ∈ visited (checkfline text line path s).tagroot,
        t ∈ visited s.tagroot ∨
          t = { id := "FUNCTION", file := path, text := text, line := line }) ∧
      (∀ (junk : List Char) (fuel : Nat) (f : FILE) (n : Int) (s1 : State),
        scan junk filetype.FORTRAN path fuel f n s = some s1 →
          ∃ new : List tag, s1.heap = s.heap ++ new ∧ ∀ t ∈ new, t.id = "FUNCTION") := by
  have e1 : Contains text "FUNCTION" →
      checkfline text line path s = addtag "FUNCTION" path text line s := by
    intro h
    unfold checkfline
    simp only [(strstr_isSome text "FUNCTION").mpr h, if_true]
  have e2 : ¬ Contains text "FUNCTION" → checkfline text line path s = s :=
    checkfline_quiet text line path s
  refine ⟨fun h => ⟨e1 h, by rw [e1 h, addtag_heap], fun hn => ?_, fun hc hs hex => ?_⟩,
    e2, ?_, ?_⟩
  · rw [e1 h]
    exact visited_addtag_fresh "FUNCTION" path text line s hn
  · rw [e1 h]
    exact addtag_found "FUNCTION" path text line s hc hs hex
  · intro t ht
    by_cases h : Contains text "FUNCTION"
    · rw [e1 h] at ht
      exact mem_visited_addtag _ _ _ _ _ t ht
    · rw [e2 h] at ht; exact Or.inl ht
  · intro junk fuel f n s1 h
    exact scan_fortran_heap junk path fuel f n s s1 h

theorem checkfline_function_witness :
    Contains "#define FUNCTION typedef" "FUNCTION" ∧
      (checkfline "#define FUNCTION typedef" 2 "a.f" (init (fun _ => none))).heap =
        [{ id := "FUNCTION", file := "a.f", text := "#define FUNCTION typedef", line := 2 }] ∧
      ¬ Contains "#define X typedef" "FUNCTION" ∧
      (checkfline "#define X typedef" 2 "a.f" (init (fun _ => none))).heap = [] ∧
      (checkfline "#define FUNCTION typedef" 2 "a.f"
          { init (fun _ => none) with
            tagroot := node.mk { id := "FUNCTION", file := "a.f", text := "FUNCTION F", line := 1 }
              node.null node.null }).tagroot =
        node.mk { id := "FUNCTION", file := "a.f", text := "FUNCTION F", line := 1 }
          node.null node.null :=
  ⟨⟨"#define ", " typedef", by decide⟩,
    ((checkfline_function "#define FUNCTION typedef" 2 "a.f" (init (fun _ => none))).1
      ⟨"#define ", " typedef", by decide⟩).2.1,
    fun h => absurd ((strstr_isSome _ _).mpr h) (by decide),
    congrArg State.heap
      ((checkfline_function "#define X typedef" 2 "a.f" (init (fun _ => none))).2.1
        (fun h => absurd ((strstr_isSome _ _).mpr h) (by decide))),
    ((checkfline_function "#define FUNCTION typedef" 2 "a.f"
      { init (fun _ => none) with
        tagroot := node.mk { id := "FUNCTION", file := "a.f", text := "FUNCTION F", line := 1 }
          node.null node.null }).1
      ⟨"#define ", " typedef", by decide⟩).2.2.2 strcmp_collation
      ⟨fun _ h => absurd h (List.not_mem_nil _), fun _ h => absurd h (List.not_mem_nil _),
        trivial, trivial⟩
      ⟨{ id := "FUNCTION", file := "a.f", text := "FUNCTION F", line := 1 }, by decide,
        by decide⟩⟩

/-- C5, as stated, fails: no line of the C-like file a.c with the content
"int x;" and a newline contains "#define ", "typedef" or "FUNCTION", and
scanning it records a tag, named identifier, for its line 1. -/
theorem addtags_c_identifier :
    (∀ l ∈ linesOf "int x;\n".data,
      ¬ Contains (String.mk l) "#define " ∧ ¬ Contains (String.mk l) "typedef" ∧
        ¬ Contains (String.mk l) "FUNCTION") ∧
    (addtags env0 "a.c" (init (onefile "a.c" "int x;\n"))).map
        (fun p => (p.1, visited p.2.tagroot)) =
      some (0, [{ id := "identifier", file := "a.c", text := "int x;", line := 1 }]) := by
  refine ⟨fun l hl => ⟨fun h => ?_, fun h => ?_, fun h => ?_⟩, by decide⟩
  · exact absurd ((strstr_isSome _ _).mpr h)
      ((by decide : ∀ l ∈ linesOf "int x;\n".data,
        ¬ (strstr (String.mk l) "#define ").isSome = true) l hl)
  · exact absurd ((strstr_isSome _ _).mpr h)
      ((by decide : ∀ l ∈ linesOf "int x;\n".data,
        ¬ (strstr (String.mk l) "typedef").isSome = true) l hl)
  · exact absurd ((strstr_isSome _ _).mpr h)
      ((by decide : ∀ l ∈ linesOf "int x;\n".data,
        ¬ (strstr (String.mk l) "FUNCTION").isSome = true) l hl)

/-- C5, amended: for every FORTRAN-like file (extension .f) that can be
opened and none of whose lines contains "FUNCTION" (so in particular when
the lines contain none of the recognised substrings), scanning returns 0 and
leaves the state as it was, no tag recorded, provided the characters found in
the buffer after the failed read at the end of the input hold no "FUNCTION"
either. -/
theorem addtags_fortran_nothing (env : Env) (path content : String) (s : State)
    (hx : strrchr path '.' = some ".f") (hf : fopen_r env path s = some content)
    (hl : ∀ l ∈ linesOf content.data, ¬ Contains (String.mk l) "FUNCTION")
    (hj : ¬ Contains (String.mk (env.junk path)) "FUNCTION") :
    addtags env path s = some (0, s) := by
  rw [addtags_f env path content s hx hf]
  have hc : ¬ Contains (String.mk content.data) "FUNCTION" := by
    intro h
    rw [contains_iff_data] at h
    obtain ⟨l, hl1, hl2⟩ := infix_line "FUNCTION".data (by decide) content.data h
    exact hl l hl1 ((contains_iff_data _ _).mpr hl2)
  rw [scan_fortran_quiet (env.junk path) path hj (content.data.length + 2)
    { rest := content.data, eof := false } 0 s (by simp) hc]
  rfl

theorem addtags_fortran_nothing_witness :
    strrchr "b.f" '.' = some ".f" ∧
      fopen_r env0 "b.f" (init (onefile "b.f" "      REAL X\n#define typedef\n")) =
        some "      REAL X\n#define typedef\n" ∧
      (addtags env0 "b.f" (init (onefile "b.f" "      REAL X\n#define typedef\n"))).map
        (fun p => (p.1, p.2.heap, visited p.2.tagroot)) = some (0, [], []) :=
  ⟨by decide, by decide,
    congrArg (Option.map (fun p => (p.1, p.2.heap, visited p.2.tagroot)))
      (addtags_fortran_nothing env0 "b.f" "      REAL X\n#define typedef\n"
        (init (onefile "b.f" "      REAL X\n#define typedef\n")) (by decide) (by decide)
        (fun l hl h => absurd ((strstr_isSome _ _).mpr h)
          ((by decide : ∀ l ∈ linesOf "      REAL X\n#define typedef\n".data,
            ¬ (strstr (String.mk l) "FUNCTION").isSome = true) l hl))
        (fun h => absurd ((strstr_isSome _ _).mpr h) (by decide)))⟩

/-- C6: called with `bracket` at zero on a text that contains neither
"#define " nor "typedef", the classifier of C-like files issues exactly one
insertion, of the tag named identifier whose file is the path, whose pattern
is the whole text and whose line is the line number (the store then holds
one more tag whenever it held no tag of an equal name).  The counter
`bracket` is zero at every call: it is zero when `main` is entered and no
function of the program moves it away from zero.  Hence every call, on any
text, issues exactly one insertion, of a tag named define, typedef or
identifier. -/
theorem checkcline_identifier (text : String) (line : Int) (path : String) (s : State)
    (hb : s.bracket = 0) (hd : ¬ Contains text "#define ") (ht : ¬ Contains text "typedef") :
    (checkcline text line path s = addtag "identifier" path text line s ∧
      (checkcline text line path s).heap =
        s.heap ++ [{ id := "identifier", file := path, text := text, line := line }] ∧
      ((¬ ∃ k ∈ visited s.tagroot, compar s.strcoll
            { id := "identifier", file := path, text := text, line := line } k = 0) →
        (visited (checkcline text line path s).tagroot).Perm (visited s.tagroot ++
          [{ id := "identifier", file := path, text := text, line := line }]))) ∧
    ((∀ fs, (init fs).bracket = 0) ∧
      (∀ env p a s0 s1, s0.bracket = 0 → fopen_w env p a s0 = some s1 → s1.bracket = 0) ∧
      (∀ i p x l s0, s0.bracket = 0 → (addtag i p x l s0).bracket = 0) ∧
      (∀ x l p s0, s0.bracket = 0 → (checkcline x l p s0).bracket = 0) ∧
      (∀ x l p s0, s0.bracket = 0 → (checkfline x l p s0).bracket = 0) ∧
      (∀ env p s0 r s1, s0.bracket = 0 → addtags env p s0 = some (r, s1) → s1.bracket = 0)) ∧
    (∀ x l p s0, s0.bracket = 0 →
      ∃ i, (i = "define" ∨ i = "typedef" ∨ i = "identifier") ∧
        checkcline x l p s0 = addtag i p x l s0 ∧
        (checkcline x l p s0).heap = s0.heap ++ [{ id := i, file := p, text := x, line := l }]) := by
  have hd1 : ¬ ((strstr text "#define ").isSome = true) := fun h => hd ((strstr_isSome _ _).mp h)
  have ht1 : ¬ ((strstr text "typedef").isSome = true) := fun h => ht ((strstr_isSome _ _).mp h)
  have e : checkcline text line path s = addtag "identifier" path text line s := by
    unfold checkcline
    simp only [reset_eq line s hb, hd1, ht1, hb, if_true, if_false, Bool.false_eq_true]
  refine ⟨⟨e, by rw [e, addtag_heap], fun hn => ?_⟩, ⟨fun _ => rfl, ?_, ?_, ?_, ?_, ?_⟩, ?_⟩
  · rw [e]
    exact visited_addtag_fresh "identifier" path text line s hn
  · intro env p a s0 s1 h0 h
    unfold fopen_w at h
    by_cases hw : env.writable p = true
    · rw [if_pos hw] at h; cases h; exact h0
    · rw [if_neg hw] at h; cases h
  · intro i p x l s0 h0; exact h0
  · intro x l p s0 h0; exact checkcline_bracket x l p s0 h0
  · intro x l p s0 h0; exact checkfline_bracket x l p s0 h0
  · intro env p s0 r s1 h0 h; exact addtags_bracket env p s0 s1 r h0 h
  · intro x l p s0 h0
    rcases checkcline_cases x l p s0 h0 with ⟨_, e1⟩ | ⟨_, _, e1⟩ | ⟨_, _, e1⟩
    · exact ⟨"define", Or.inl rfl, e1, by rw [e1, addtag_heap]⟩
    · exact ⟨"typedef", Or.inr (Or.inl rfl), e1, by rw [e1, addtag_heap]⟩
    · exact ⟨"identifier", Or.inr (Or.inr rfl), e1, by rw [e1, addtag_heap]⟩

theorem checkcline_identifier_witness :
    (init (fun _ => none)).bracket = 0 ∧ ¬ Contains "int main() \x7b" "#define " ∧
      ¬ Contains "int main() \x7b" "typedef" ∧
      (checkcline "int main() \x7b" 2 "a.c" (init (fun _ => none))).heap =
        [{ id := "identifier", file := "a.c", text := "int main() \x7b", line := 2 }] :=
  ⟨rfl, fun h => absurd ((strstr_isSome _ _).mpr h) (by decide),
    fun h => absurd ((strstr_isSome _ _).mpr h) (by decide),
    (checkcline_identifier "int main() \x7b" 2 "a.c" (init (fun _ => none)) rfl
      (fun h => absurd ((strstr_isSome _ _).mpr h) (by decide))
      (fun h => absurd ((strstr_isSome _ _).mpr h) (by decide))).1.2.1⟩

/-- C7: for every sequence of insertions into the empty store, in any order,
under a collation, the tags that the walk visits (its `postorder` and `leaf`
visits) are in non-decreasing order of name under `compar`. -/
theorem visited_nondecreasing (ts : List tag) (s : State) (hc : Collation s.strcoll)
    (hs : s.tagroot = node.null) :
    (visited (addtag_all ts s).tagroot).Pairwise (fun a b => compar s.strcoll a b ≤ 0) := by
  rw [visited_eq_inorder]
  have h1 : searchTree (compar s.strcoll) (addtag_all ts s).tagroot :=
    addtag_all_searchTree s.strcoll ts s rfl (by rw [hs]; trivial)
  exact (inorder_sorted s.strcoll hc _ h1).imp (fun h => le_of_lt h)

theorem visited_nondecreasing_witness :
    Collation (init (fun _ => none)).strcoll ∧ (init (fun _ => none)).tagroot = node.null ∧
      (visited (addtag_all
        [{ id := "typedef", file := "a.c", text := "typedef int T;", line := 1 },
         { id := "identifier", file := "a.c", text := "int x;", line := 2 },
         { id := "FUNCTION", file := "b.f", text := "FUNCTION F", line := 1 },
         { id := "define", file := "c.h", text := "#define A 1", line := 1 }]
        (init (fun _ => none))).tagroot).Pairwise
        (fun a b => compar (init (fun _ => none)).strcoll a b ≤ 0) :=
  ⟨strcmp_collation, rfl,
    visited_nondecreasing
      [{ id := "typedef", file := "a.c", text := "typedef int T;", line := 1 },
       { id := "identifier", file := "a.c", text := "int x;", line := 2 },
       { id := "FUNCTION", file := "b.f", text := "FUNCTION F", line := 1 },
       { id := "define", file := "c.h", text := "#define A 1", line := 1 }]
      (init (fun _ => none)) strcmp_collation rfl⟩

/-- C8, as stated, fails: scanning the file a.c of the example and emitting
the store yields two records, not four, in the tag table as in the listing:
the define tag of line 1 and the identifier tag of line 2. -/
theorem example_two_records :
    (addtags env0 "a.c"
        (init (onefile "a.c" "#define X 1\nint main() \x7b\nreturn 0;\n\x7d\n"))).map
        (fun p => (p.1, visited p.2.tagroot)) =
      some (0, [{ id := "define", file := "a.c", text := "#define X 1", line := 1 },
        { id := "identifier", file := "a.c", text := "int main() \x7b", line := 2 }]) ∧
    (main env0 [] ["a.c"] (onefile "a.c" "#define X 1\nint main() \x7b\nreturn 0;\n\x7d\n")).map
        (fun p => (p.1, p.2.output)) =
      some (0, some "define\ta.c\t/^#define X 1$/\nidentifier\ta.c\t/^int main() \x7b$/\n") ∧
    (main env0 [('x', "")] ["a.c"]
        (onefile "a.c" "#define X 1\nint main() \x7b\nreturn 0;\n\x7d\n")).map
        (fun p => (p.1, p.2.stdout)) =
      some (0, "define 1 a.c #define X 1\nidentifier 2 a.c int main() \x7b\n") := by
  decide

/-- C8, amended: scanning the C-like file a.c whose lines are "#define X 1",
"int main() {", "return 0;", "}" into an empty store under the POSIX collation
returns 0; insertions are issued for the four lines (define for line 1,
identifier for lines 2, 3 and 4) and the store keeps the first tag of each
name, so that the records of the four lines are two: the define tag of line 1
with pattern "#define X 1" and the identifier tag of line 2 with pattern
"int main() {".  Both emitters write the records of the visited tags, and
when the buffer of the failed read after the last line holds no "typedef"
these two tags are all that is visited. -/
theorem example_records (env : Env) (s : State) (hc : s.strcoll = strcmp)
    (ht : s.tagroot = node.null) (hb : s.bracket = 0)
    (hf : fopen_r env "a.c" s = some "#define X 1\nint main() \x7b\nreturn 0;\n\x7d\n") :
    ∃ s1, addtags env "a.c" s = some (0, s1) ∧
      (visited s1.tagroot).filter (fun t => decide (t.line ≤ 4)) =
        [{ id := "define", file := "a.c", text := "#define X 1", line := 1 },
         { id := "identifier", file := "a.c", text := "int main() \x7b", line := 2 }] ∧
      (∃ last : tag, last.line = 5 ∧ s1.heap = s.heap ++
        [{ id := "define", file := "a.c", text := "#define X 1", line := 1 },
         { id := "identifier", file := "a.c", text := "int main() \x7b", line := 2 },
         { id := "identifier", file := "a.c", text := "return 0;", line := 3 },
         { id := "identifier", file := "a.c", text := "\x7d", line := 4 }, last]) ∧
      (twalk s1.tagroot writefile s1).output =
        s.output.map (fun w => w ++ concat ((visited s1.tagroot).map tagline)) ∧
      (twalk s1.tagroot writex s1).stdout =
        s.stdout ++ concat ((visited s1.tagroot).map listline) ∧
      (¬ Contains (chop (env.junk "a.c")) "typedef" →
        visited s1.tagroot =
          [{ id := "define", file := "a.c", text := "#define X 1", line := 1 },
           { id := "identifier", file := "a.c", text := "int main() \x7b", line := 2 }]) := by
  rw [addtags_c env "a.c" _ s (Or.inl (by decide)) hf]
  obtain ⟨c, t, o, hp, b, so, se, fs⟩ := s
  simp only at hc ht hb
  subst hc ht hb
  rw [scan_example]
  refine ⟨_, rfl, ?_⟩
  rw [twalk_writefile, twalk_writex]
  rcases checkcline_cases (chop (env.junk "a.c")) 5 "a.c"
      { strcoll := strcmp,
        tagroot := node.mk { id := "define", file := "a.c", text := "#define X 1", line := 1 }
          node.null
          (node.mk { id := "identifier", file := "a.c", text := "int main() \x7b", line := 2 }
            node.null node.null),
        output := o,
        heap := hp ++ [{ id := "define", file := "a.c", text := "#define X 1", line := 1 }] ++
          [{ id := "identifier", file := "a.c", text := "int main() \x7b", line := 2 }] ++
          [{ id := "identifier", file := "a.c", text := "return 0;", line := 3 }] ++
          [{ id := "identifier", file := "a.c", text := "\x7d", line := 4 }],
        bracket := 0, stdout := so, stderr := se, fs := fs } rfl with
    ⟨_, e⟩ | ⟨_, h2, e⟩ | ⟨_, h2, e⟩
  · rw [e]
    refine ⟨?_, ⟨{ id := "define", file := "a.c", text := chop (env.junk "a.c"), line := 5 },
      rfl, by simp [addtag]⟩, rfl, rfl, fun _ => ?_⟩
    · rw [visited_eq_inorder]; rfl
    · rw [visited_eq_inorder]; rfl
  · rw [e]
    refine ⟨?_, ⟨{ id := "typedef", file := "a.c", text := chop (env.junk "a.c"), line := 5 },
      rfl, by simp [addtag]⟩, rfl, rfl, fun h => absurd h2 h⟩
    rw [visited_eq_inorder]; rfl
  · rw [e]
    refine ⟨?_, ⟨{ id := "identifier", file := "a.c", text := chop (env.junk "a.c"), line := 5 },
      rfl, by simp [addtag]⟩, rfl, rfl, fun _ => ?_⟩
    · rw [visited_eq_inorder]; rfl
    · rw [visited_eq_inorder]; rfl

theorem example_records_witness :
    (init (onefile "a.c" "#define X 1\nint main() \x7b\nreturn 0;\n\x7d\n")).strcoll = strcmp ∧
      (init (onefile "a.c" "#define X 1\nint main() \x7b\nreturn 0;\n\x7d\n")).tagroot = node.null ∧
      (init (onefile "a.c" "#define X 1\nint main() \x7b\nreturn 0;\n\x7d\n")).bracket = 0 ∧
      fopen_r env0 "a.c" (init (onefile "a.c" "#define X 1\nint main() \x7b\nreturn 0;\n\x7d\n")) =
        some "#define X 1\nint main() \x7b\nreturn 0;\n\x7d\n" ∧
      ∃ s1, addtags env0 "a.c"
          (init (onefile "a.c" "#define X 1\nint main() \x7b\nreturn 0;\n\x7d\n")) = some (0, s1) ∧
        (visited s1.tagroot).filter (fun t => decide (t.line ≤ 4)) =
          [{ id := "define", file := "a.c", text := "#define X 1", line := 1 },
           { id := "identifier", file := "a.c", text := "int main() \x7b", line := 2 }] :=
  ⟨rfl, rfl, rfl, by decide,
    (example_records env0 (init (onefile "a.c" "#define X 1\nint main() \x7b\nreturn 0;\n\x7d\n"))
      rfl rfl rfl (by decide)).imp (fun _ h => ⟨h.1, h.2.1⟩)⟩

/-- C9: in tag-table mode the text that `writefile` appends to `output` for a
tag, at its `postorder` or `leaf` visit, is the name, a tab, the file, a tab,
"/^", the stored line text unchanged, "$/" and a newline, and nothing is
written at the other visits.  The walk appends these records for the visited
tags in the order of the walk, and the whole output of a run in tag-table
mode (destination `path`, at least one operand) is their concatenation. -/
theorem writefile_record (env : Env) (opts : List (Char × String)) (operands : List String)
    (fs : String → Option String) (path : String) (append : Bool)
    (ho : getopts opts (some "tags", false) = some (some path, append))
    (hne : operands ≠ []) (hw : env.writable path = true)
    (t : tag) (level : Nat) (s : State) (root : node) :
    ((writefile t VISIT.postorder level s).output = s.output.map (fun w => w ++
        (t.id ++ "\t" ++ t.file ++ "\t" ++ "/^" ++ t.text ++ "$/" ++ "\n")) ∧
      writefile t VISIT.leaf level s = writefile t VISIT.postorder level s ∧
      writefile t VISIT.preorder level s = s ∧ writefile t VISIT.endorder level s = s) ∧
    (twalk root writefile s).output = s.output.map (fun w => w ++ concat ((visited root).map
        (fun t => t.id ++ "\t" ++ t.file ++ "\t" ++ "/^" ++ t.text ++ "$/" ++ "\n"))) ∧
    ∃ r s1, main env opts operands fs = some (r, s1) ∧
      s1.output = some (concat ((visited s1.tagroot).map
        (fun t => t.id ++ "\t" ++ t.file ++ "\t" ++ "/^" ++ t.text ++ "$/" ++ "\n"))) := by
  have hfun : (fun t : tag => t.id ++ "\t" ++ t.file ++ "\t" ++ "/^" ++ t.text ++ "$/" ++ "\n") =
      tagline := funext (fun t => (tagline_eq t).symm)
  rw [hfun, ← tagline_eq]
  refine ⟨⟨by simp [writefile, tagline], by simp [writefile], by simp [writefile],
    by simp [writefile]⟩, by rw [twalk_writefile], ?_⟩
  obtain ⟨r, s1, h1, h2, _⟩ := main_table env opts operands fs path append ho hne hw
  exact ⟨r, s1, h1, h2⟩

theorem writefile_record_witness :
    getopts [('f', "out")] (some "tags", false) = some (some "out", false) ∧
      ["a.c"] ≠ [] ∧ env0.writable "out" = true ∧
      (writefile { id := "define", file := "a.c", text := "#define F(x) (x)*[0]", line := 1 }
        VISIT.postorder 0 { init (fun _ => none) with output := some "" }).output =
        some "define\ta.c\t/^#define F(x) (x)*[0]$/\n" :=
  ⟨by decide, by decide, rfl,
    (writefile_record env0 [('f', "out")] ["a.c"] (fun _ => none) "out" false
      (by decide) (by decide) rfl
      { id := "define", file := "a.c", text := "#define F(x) (x)*[0]", line := 1 } 0
      { init (fun _ => none) with output := some "" } node.null).1.1⟩

/-- C10: in listing mode the text that `writex` appends to the standard
output for a tag, at its `postorder` or `leaf` visit, is the name, the line
number in decimal, the file and the stored line text, separated by single
spaces and ended by a newline, and nothing is written at the other visits.
The walk appends these records for the visited tags in the order of the
walk, and the standard output of a run in listing mode (at least one
operand) is their concatenation. -/
theorem writex_record (env : Env) (opts : List (Char × String)) (operands : List String)
    (fs : String → Option String) (append : Bool)
    (ho : getopts opts (some "tags", false) = some (none, append))
    (hne : operands ≠ [])
    (t : tag) (level : Nat) (s : State) (root : node) :
    ((writex t VISIT.postorder level s).stdout =
        s.stdout ++ (t.id ++ " " ++ fmt_d t.line ++ " " ++ t.file ++ " " ++ t.text ++ "\n") ∧
      writex t VISIT.leaf level s = writex t VISIT.postorder level s ∧
      writex t VISIT.preorder level s = s ∧ writex t VISIT.endorder level s = s) ∧
    (∀ n : Nat, fmt_d (n : Int) = String.mk (Nat.toDigits 10 n) ∧
      fmt_d (-((n : Int) + 1)) = "-" ++ String.mk (Nat.toDigits 10 (n + 1))) ∧
    (twalk root writex s).stdout = s.stdout ++ concat ((visited root).map
        (fun t => t.id ++ " " ++ fmt_d t.line ++ " " ++ t.file ++ " " ++ t.text ++ "\n")) ∧
    ∃ r s1, main env opts operands fs = some (r, s1) ∧
      s1.stdout = concat ((visited s1.tagroot).map
        (fun t => t.id ++ " " ++ fmt_d t.line ++ " " ++ t.file ++ " " ++ t.text ++ "\n")) := by
  have hfun : (fun t : tag => t.id ++ " " ++ fmt_d t.line ++ " " ++ t.file ++ " " ++ t.text ++
      "\n") = listline := rfl
  rw [hfun]
  refine ⟨⟨by simp [writex, String.append_assoc], by simp [writex], by simp [writex],
    by simp [writex]⟩, fun n => ⟨rfl, rfl⟩, by rw [twalk_writex], ?_⟩
  obtain ⟨r, s1, h1, h2, _⟩ := main_listing env opts operands fs append ho hne
  exact ⟨r, s1, h1, h2⟩

theorem writex_record_witness :
    getopts [('f', "out"), ('x', "")] (some "tags", false) = some (none, false) ∧
      ["a.c"] ≠ [] ∧
      (writex { id := "typedef", file := "a.h", text := "typedef int T;", line := 12 }
        VISIT.postorder 0 (init (fun _ => none))).stdout = "typedef 12 a.h typedef int T;\n" :=
  ⟨by decide, by decide,
    (writex_record env0 [('f', "out"), ('x', "")] ["a.c"] (fun _ => none) false
      (by decide) (by decide)
      { id := "typedef", file := "a.h", text := "typedef int T;", line := 12 } 0
      (init (fun _ => none)) node.null).1.1⟩

/-- C11: in tag-table mode, whatever collation the ambient locale has, the
records written are those of the visited tags in the order of the walk, and
the names of the visited tags increase strictly in the byte-wise comparison
`strcmp`, the collation of the POSIX locale.  As every name is one of
FUNCTION, define, identifier and typedef, a record that stands before another
is a FUNCTION record before a define, identifier or typedef record, a define
record before an identifier or typedef record, or an identifier record
before a typedef record. -/
theorem table_order (env : Env) (opts : List (Char × String)) (operands : List String)
    (fs : String → Option String) (path : String) (append : Bool)
    (ho : getopts opts (some "tags", false) = some (some path, append))
    (hne : operands ≠ []) (hw : env.writable path = true) :
    ∃ r s1, main env opts operands fs = some (r, s1) ∧
      s1.output = some (concat ((visited s1.tagroot).map tagline)) ∧
      s1.strcoll = strcmp ∧
      (visited s1.tagroot).Pairwise (fun a b => strcmp a.id b.id < 0) ∧
      (∀ t ∈ visited s1.tagroot, t.id ∈ categories) ∧
      (visited s1.tagroot).Pairwise (fun a b =>
        (a.id = "FUNCTION" ∧ (b.id = "define" ∨ b.id = "identifier" ∨ b.id = "typedef")) ∨
          (a.id = "define" ∧ (b.id = "identifier" ∨ b.id = "typedef")) ∨
          (a.id = "identifier" ∧ b.id = "typedef")) := by
  have hw1 : ∀ p, some path = some p → env.writable p = true :=
    fun p hp => by cases hp; exact hw
  obtain ⟨r, s1, h, h1, h2, h3, _⟩ := main_store env opts operands fs (some path) append ho hne
    hw1 strcmp_collation
  obtain ⟨r2, s2, h4, _, h5, _⟩ := main_table_fs env opts operands fs path append ho hne hw
  rw [h] at h4
  cases h4
  have h1s : s1.strcoll = strcmp := h1
  rw [h1s] at h2
  exact ⟨r, s1, h, h5, h1s, h2, h3,
    h2.imp_of_mem (fun ha hb hlt => categories_order _ _ (h3 _ ha) (h3 _ hb) hlt)⟩

theorem table_order_witness :
    getopts [('f', "out")] (some "tags", false) = some (some "out", false) ∧
      ["b.f", "a.c"] ≠ [] ∧ env0.writable "out" = true ∧
      ∃ r s1, main { env0 with ambient := fun a b => strcmp b a } [('f', "out")] ["b.f", "a.c"]
          (fun p => if p = "b.f" then some "      FUNCTION F\n"
            else onefile "a.c" "typedef int T;\nint x;\n#define A\n" p) = some (r, s1) ∧
        s1.output = some (concat ((visited s1.tagroot).map tagline)) ∧
        s1.strcoll = strcmp ∧
        (visited s1.tagroot).Pairwise (fun a b => strcmp a.id b.id < 0) :=
  ⟨by decide, by decide, rfl,
    (table_order { env0 with ambient := fun a b => strcmp b a } [('f', "out")] ["b.f", "a.c"]
      (fun p => if p = "b.f" then some "      FUNCTION F\n"
        else onefile "a.c" "typedef int T;\nint x;\n#define A\n" p) "out" false
      (by decide) (by decide) rfl).imp
      (fun _ => Exists.imp (fun _ h => ⟨h.1, h.2.1, h.2.2.1, h.2.2.2.1⟩))⟩

/-- C12: for every path that contains a dot, with `extension` the suffix of
the path that starts at its last dot, the variable `filetype` of `addtags` is
C exactly when the extension is ".c" or ".h" and FORTRAN exactly when it is
".f"; `addtags` then opens the file and scans it with the classifier of that
type, `checkcline` for C and `checkfline` for FORTRAN.  For every other
extension `addtags` returns 1 and the state is the one it was called in but
for the diagnostic on the error stream: no file is read, no tag recorded.
When the file is opened, its content is a sequence of lines and a last piece
without newline, and the state that `addtags` returns with 0 is the one that
the calls of `checkcline` leave when the extension is ".c" or ".h", and the
one that the calls of `checkfline` leave when it is ".f": one call for each
line, in order and with its number, and one more, on the last piece or, when
that is empty, on the buffer of the failed `getline`. -/
theorem addtags_extension (env : Env) (path : String) (s : State) (pre rest : List Char)
    (hp : path.data = pre ++ '.' :: rest) (hr : '.' ∉ rest) :
    strrchr path '.' = some (String.mk ('.' :: rest)) ∧
    (filetype_of (String.mk ('.' :: rest)) = filetype.C ↔
      String.mk ('.' :: rest) = ".c" ∨ String.mk ('.' :: rest) = ".h") ∧
    (filetype_of (String.mk ('.' :: rest)) = filetype.FORTRAN ↔
      String.mk ('.' :: rest) = ".f") ∧
    (addtags env path s =
      match filetype_of (String.mk ('.' :: rest)) with
      | filetype.C => addtags.addtags_scan env path s filetype.C
      | filetype.FORTRAN => addtags.addtags_scan env path s filetype.FORTRAN
      | filetype.UNKNOWN =>
        some (1, { s with stderr := (s.stderr ++
          "ctags: Don't know how to process files with extension '" ++
            String.mk ('.' :: rest) ++ "'\n") })) ∧
    (∀ ft, addtags.addtags_scan env path s ft =
      match fopen_r env path s with
      | none =>
        some (1, { s with stderr := s.stderr ++
          "ctags: Couldn't open " ++ path ++ ": " ++ env.strerror path ++ "\n" })
      | some content =>
        (scan (env.junk path) ft path (content.data.length + 2)
          { rest := content.data, eof := false } 0 s).map (fun s1 => (0, s1))) ∧
    (∀ text lineno s0, classify filetype.C path text lineno s0 = checkcline text lineno path s0) ∧
    (∀ text lineno s0,
      classify filetype.FORTRAN path text lineno s0 = checkfline text lineno path s0) ∧
    (String.mk ('.' :: rest) ≠ ".c" → String.mk ('.' :: rest) ≠ ".h" →
      String.mk ('.' :: rest) ≠ ".f" →
      ∃ s1, addtags env path s = some (1, s1) ∧ s1.heap = s.heap ∧ s1.tagroot = s.tagroot ∧
        s1.fs = s.fs ∧ s1.output = s.output ∧ s1.stdout = s.stdout ∧
        s1.stderr = s.stderr ++ "ctags: Don't know how to process files with extension '" ++
          String.mk ('.' :: rest) ++ "'\n") ∧
    (∀ content, fopen_r env path s = some content →
      ∃ ls last, content.data = filetext ls last ∧ (∀ l ∈ ls, '\n' ∉ l) ∧ '\n' ∉ last ∧
        (String.mk ('.' :: rest) = ".c" ∨ String.mk ('.' :: rest) = ".h" →
          addtags env path s = some (0, calls checkcline path
            (ls.map (fun l => l ++ ['\n']) ++ [if last = [] then env.junk path else last])
            0 s)) ∧
        (String.mk ('.' :: rest) = ".f" →
          addtags env path s = some (0, calls checkfline path
            (ls.map (fun l => l ++ ['\n']) ++ [if last = [] then env.junk path else last])
            0 s))) := by
  have hx := strrchr_last path pre rest hp hr
  refine ⟨hx, filetype_of_C _, filetype_of_FORTRAN _, addtags_filetype env path _ s hx,
    fun ft => rfl, fun _ _ _ => rfl, fun _ _ _ => rfl, fun h1 h2 h3 => ?_,
    fun content hf => ?_⟩
  swap
  · obtain ⟨ls, last, e1, e2, e3⟩ := filetext_decompose content.data
    refine ⟨ls, last, e1, e2, e3, fun hc => ?_, fun hf1 => ?_⟩
    · have hx1 : strrchr path '.' = some ".c" ∨ strrchr path '.' = some ".h" := by
        rcases hc with h | h
        · exact Or.inl (by rw [hx, h])
        · exact Or.inr (by rw [hx, h])
      rw [addtags_c env path content s hx1 hf]
      conv_lhs => rw [e1]
      rw [scan_filetext (env.junk path) filetype.C path last e3 ls _ 0 s e2 (le_refl _),
        feed_checkcline]
      rfl
    · rw [addtags_f env path content s (by rw [hx, hf1]) hf]
      conv_lhs => rw [e1]
      rw [scan_filetext (env.junk path) filetype.FORTRAN path last e3 ls _ 0 s e2 (le_refl _),
        feed_checkfline]
      rfl
  have hu : filetype_of (String.mk ('.' :: rest)) = filetype.UNKNOWN := by
    have hc := (filetype_of_C (String.mk ('.' :: rest))).not.mpr (by
      intro h; rcases h with h | h
      · exact h1 h
      · exact h2 h)
    have hf := (filetype_of_FORTRAN (String.mk ('.' :: rest))).not.mpr h3
    cases hft : filetype_of (String.mk ('.' :: rest)) with
    | UNKNOWN => rfl
    | C => exact absurd hft hc
    | FORTRAN => exact absurd hft hf
  rw [addtags_filetype env path _ s hx, hu]
  exact ⟨_, rfl, rfl, rfl, rfl, rfl, rfl, rfl⟩

theorem addtags_extension_witness :
    "src/x.tar.h".data = "src/x.tar".data ++ '.' :: "h".data ∧ '.' ∉ "h".data ∧
      strrchr "src/x.tar.h" '.' = some ".h" ∧
      (filetype_of ".h" = filetype.C ↔ ".h" = ".c" ∨ ".h" = ".h") ∧
      "m.f".data = "m".data ++ '.' :: "f".data ∧ '.' ∉ "f".data ∧
      ∃ ls last, "typedef FUNCTION\n".data = filetext ls last ∧
        (".f" = ".f" →
          addtags env0 "m.f" (init (onefile "m.f" "typedef FUNCTION\n")) =
            some (0, calls checkfline "m.f"
              (ls.map (fun l => l ++ ['\n']) ++ [if last = [] then env0.junk "m.f" else last])
              0 (init (onefile "m.f" "typedef FUNCTION\n")))) :=
  ⟨by decide, by decide,
    (addtags_extension env0 "src/x.tar.h" (init (fun _ => none)) "src/x.tar".data "h".data
      (by decide) (by decide)).1,
    (addtags_extension env0 "src/x.tar.h" (init (fun _ => none)) "src/x.tar".data "h".data
      (by decide) (by decide)).2.1,
    by decide, by decide,
    ((addtags_extension env0 "m.f" (init (onefile "m.f" "typedef FUNCTION\n")) "m".data
      "f".data (by decide) (by decide)).2.2.2.2.2.2.2.2 "typedef FUNCTION\n" (by decide)).imp
      (fun _ => Exists.imp (fun _ h => ⟨h.1, h.2.2.2.2⟩))⟩

/-- C13: the code at paths without extension.  For README, which holds no
dot at all, `addtags` writes the missing-extension diagnostic, returns 1 and
records nothing.  For ./README and src.d/Makefile, whose final component has
no extension either, the dot found is one of the directory part: `addtags`
writes the unsupported-extension diagnostic, with the rest of the path from
that dot as the extension.  The return value is 1 and no tag is recorded in
both cases, and the other files of the run are scanned. -/
theorem addtags_dot_in_directory :
    (addtags env0 "README" (init (fun _ => none))).map (fun p => (p.1, p.2.stderr, p.2.heap)) =
      some (1, "ctags: Don't know how to process files without an extension (README)\n", []) ∧
    (addtags env0 "./README" (init (fun _ => none))).map
        (fun p => (p.1, p.2.stderr, p.2.heap)) =
      some (1, "ctags: Don't know how to process files with extension './README'\n", []) ∧
    (addtags env0 "src.d/Makefile" (init (fun _ => none))).map
        (fun p => (p.1, p.2.stderr, p.2.heap)) =
      some (1, "ctags: Don't know how to process files with extension '.d/Makefile'\n", []) ∧
    (main env0 [('x', "")] ["./README", "a.c"] (onefile "a.c" "int x;\n")).map
        (fun p => (p.1, p.2.stdout, p.2.stderr)) =
      some (1, "identifier 1 a.c int x;\n",
        "ctags: Don't know how to process files with extension './README'\n") := by
  decide

/-- C15, as stated, fails: with the options -x -f out, in this order, the
run is in tag-table mode: it writes the tag table to out and nothing to the
standard output. -/
theorem listing_before_destination :
    (main env0 [('x', ""), ('f', "out")] ["a.c"] (onefile "a.c" "int x;\n")).map
        (fun p => (p.1, p.2.stdout, p.2.fs "out")) =
      some (0, "", some "identifier\ta.c\t/^int x;$/\n") := by
  decide

/-- C15, amended: the last of the options -f and -x decides the mode.  For
every option sequence in which only -a options follow an -x, whatever -f
options stand before it, the run writes the listing to the standard output,
opens no stream to a tag table and leaves the file system as it was.  When
it is a -f that only -a options follow, the run is in tag-table mode for the
path of that -f: nothing goes to the standard output and the records go to
that file, also when an -x stands before it. -/
theorem listing_last (env : Env) (o1 o2 : List (Char × String)) (optarg : String)
    (operands : List String) (fs : String → Option String)
    (h1 : ∀ o ∈ o1, o.1 = 'a' ∨ o.1 = 'f' ∨ o.1 = 'x') (h2 : ∀ o ∈ o2, o.1 = 'a')
    (hne : operands ≠ []) :
    (∃ r s1, main env (o1 ++ ('x', optarg) :: o2) operands fs = some (r, s1) ∧
      s1.stdout = concat ((visited s1.tagroot).map listline) ∧ s1.output = none ∧
      s1.fs = fs) ∧
    (env.writable optarg = true →
      ∃ r s1 append, main env (o1 ++ ('f', optarg) :: o2) operands fs = some (r, s1) ∧
        s1.stdout = "" ∧
        s1.output = some (concat ((visited s1.tagroot).map tagline)) ∧
        s1.fs = Function.update fs optarg
          (some ((if append = true then (fs optarg).getD "" else "") ++
            concat ((visited s1.tagroot).map tagline)))) := by
  constructor
  · obtain ⟨append, ho⟩ := (getopts_last o1 o2 'x' optarg h1 h2).1 rfl
    exact main_listing_fs env _ operands fs append ho hne
  · intro hw
    obtain ⟨append, ho⟩ := (getopts_last o1 o2 'f' optarg h1 h2).2 rfl
    obtain ⟨r, s1, h⟩ := main_table_fs env _ operands fs optarg append ho hne hw
    exact ⟨r, s1, append, h⟩

theorem listing_last_witness :
    (∀ o ∈ [('a', ""), ('f', "out")], o.1 = 'a' ∨ o.1 = 'f' ∨ o.1 = 'x') ∧
      (∀ o ∈ [('a', "")], o.1 = 'a') ∧ ["a.c"] ≠ [] ∧
      ∃ r s1, main env0 ([('a', ""), ('f', "out")] ++ ('x', "") :: [('a', "")]) ["a.c"]
          (onefile "a.c" "int x;\n") = some (r, s1) ∧
        s1.stdout = concat ((visited s1.tagroot).map listline) ∧ s1.output = none ∧
        s1.fs = onefile "a.c" "int x;\n" :=
  ⟨by decide, by decide, by decide,
    (listing_last env0 [('a', ""), ('f', "out")] [('a', "")] "" ["a.c"]
      (onefile "a.c" "int x;\n") (by decide) (by decide) (by decide)).1⟩

/-- C17, as stated, fails: a run without the append option followed by a run
with it, with the same operands and files, need not leave the output of the
first run twice.  The header a.h holds the one line "#define A", ended by a
newline; each scan of it reads, after the line, the buffer of a `getline`
that has read nothing, and the two processes need not find the same
characters there: with "ZZ" in the first and "YY" in the second the
destination ends with a record that the first run has not written.  And when
the destination is itself an operand, the second run scans what the first has
written: the two runs of `-f a.c a.c` leave two different records. -/
theorem append_twice_differs :
    (main { env0 with junk := fun _ => "ZZ".data } [('f', "tags")] ["a.h"]
        (onefile "a.h" "#define A\n")).map (fun p => (p.1, p.2.fs "tags")) =
      some (0, some "define\ta.h\t/^#define A$/\nidentifier\ta.h\t/^Z$/\n") ∧
    ((main { env0 with junk := fun _ => "ZZ".data } [('f', "tags")] ["a.h"]
        (onefile "a.h" "#define A\n")).bind
      (fun p => main { env0 with junk := fun _ => "YY".data } [('a', ""), ('f', "tags")]
        ["a.h"] p.2.fs)).map (fun q => (q.1, q.2.fs "tags")) =
      some (0, some ("define\ta.h\t/^#define A$/\nidentifier\ta.h\t/^Z$/\n" ++
        "define\ta.h\t/^#define A$/\nidentifier\ta.h\t/^Y$/\n")) ∧
    ((main { env0 with junk := fun _ => "ZZ".data } [('f', "tags")] ["a.h"]
        (onefile "a.h" "#define A\n")).bind
      (fun p => main { env0 with junk := fun _ => "YY".data } [('a', ""), ('f', "tags")]
        ["a.h"] p.2.fs)).map (fun q => q.2.fs "tags") ≠
      some (some ("define\ta.h\t/^#define A$/\nidentifier\ta.h\t/^Z$/\n" ++
        "define\ta.h\t/^#define A$/\nidentifier\ta.h\t/^Z$/\n")) ∧
    (main env0 [('f', "a.c")] ["a.c"] (onefile "a.c" "int x;\n")).map
        (fun p => (p.1, p.2.fs "a.c")) =
      some (0, some "identifier\ta.c\t/^$/\n") ∧
    ((main env0 [('f', "a.c")] ["a.c"] (onefile "a.c" "int x;\n")).bind
      (fun p => main env0 [('a', ""), ('f', "a.c")] ["a.c"] p.2.fs)).map
        (fun q => (q.1, q.2.fs "a.c")) =
      some (0, some ("identifier\ta.c\t/^$/\n" ++
        "identifier\ta.c\t/^identifier\ta.c\t/^$/$/\n")) ∧
    ((main env0 [('f', "a.c")] ["a.c"] (onefile "a.c" "int x;\n")).bind
      (fun p => main env0 [('a', ""), ('f', "a.c")] ["a.c"] p.2.fs)).map
        (fun q => q.2.fs "a.c") ≠
      some (some ("identifier\ta.c\t/^$/\n" ++ "identifier\ta.c\t/^$/\n")) := by
  decide

/-- C17, amended: a run in tag-table mode leaves in the destination, with the
append option, what the destination held before the run (nothing when it did
not exist) followed by the records of this run, and without the append option
the records of this run only; no other file changes.  Hence a run without the
append option followed by a run with it, with the same operands and files,
leaves the records of the first run followed by the records of the second.
The second run has the records of the first, so that the destination holds
the output of the first run twice in a row, when the destination is not one
of the operands and the two runs find the same characters in the buffer of
the read that fails at the end of every operand that is empty or ends with a
newline; what these characters are is left open. -/
theorem append_content (env : Env) (opts : List (Char × String)) (operands : List String)
    (fs : String → Option String) (path : String) (append : Bool)
    (ho : getopts opts (some "tags", false) = some (some path, append))
    (hne : operands ≠ []) (hw : env.writable path = true) :
    ∃ r s1, main env opts operands fs = some (r, s1) ∧
      s1.output = some (concat ((visited s1.tagroot).map tagline)) ∧
      (append = true → s1.fs path =
        some ((fs path).getD "" ++ concat ((visited s1.tagroot).map tagline))) ∧
      (append = false → s1.fs path = some (concat ((visited s1.tagroot).map tagline))) ∧
      (∀ q, q ≠ path → s1.fs q = fs q) ∧
      (append = false →
        ∀ (junk2 : String → List Char) opts2,
          getopts opts2 (some "tags", false) = some (some path, true) →
          ∃ r2 s2, main { env with junk := junk2 } opts2 operands s1.fs = some (r2, s2) ∧
            s2.fs path = some (concat ((visited s1.tagroot).map tagline) ++
              concat ((visited s2.tagroot).map tagline)) ∧
            (path ∉ operands →
              (∀ p ∈ operands, ∀ content, fs p = some content →
                content.data = [] ∨ content.data.getLast? = some '\n' →
                  junk2 p = env.junk p) →
              r2 = r ∧ s2.tagroot = s1.tagroot ∧
                s2.fs path = some (concat ((visited s1.tagroot).map tagline) ++
                  concat ((visited s1.tagroot).map tagline)))) := by
  obtain ⟨r, s1, h, _, h2, h3⟩ := main_table_fs env opts operands fs path append ho hne hw
  refine ⟨r, s1, h, h2, ?_, ?_, ?_, ?_⟩
  · intro ha
    rw [h3, ha]
    simp
  · intro ha
    rw [h3, ha]
    simp
  · intro q hq
    rw [h3, Function.update_noteq hq]
  · intro ha junk2 opts2 ho2
    obtain ⟨r3, s3, h6, _, _, h7⟩ :=
      main_table_fs { env with junk := junk2 } opts2 operands s1.fs path true ho2 hne hw
    have hs1 : s1.fs path = some (concat ((visited s1.tagroot).map tagline)) := by
      rw [h3, ha]
      simp
    have h8 : s3.fs path = some (concat ((visited s1.tagroot).map tagline) ++
        concat ((visited s3.tagroot).map tagline)) := by
      rw [h7, hs1]
      simp
    refine ⟨r3, s3, h6, h8, fun hp hj => ?_⟩
    have hj2 : ∀ p ∈ operands, ∀ content, s1.fs p = some content →
        content.data = [] ∨ content.data.getLast? = some '\n' → junk2 p = env.junk p := by
      intro p hpo content hc
      have hne2 : p ≠ path := fun e => hp (by rw [← e]; exact hpo)
      rw [h3, Function.update_noteq hne2] at hc
      exact hj p hpo content hc
    rw [main_table_junk env junk2 opts2 operands s1.fs path true ho2 hne hw hp hj2] at h6
    obtain ⟨s2, h4, h5⟩ := main_table_again env opts opts2 operands fs path append r s1
      ho ho2 hne hw hp h
    rw [h4] at h6
    cases h6
    exact ⟨rfl, h5, by rw [h8, h5]⟩

theorem append_content_witness :
    getopts [('a', "")] (some "tags", false) = some (some "tags", true) ∧ ["a.c"] ≠ [] ∧
      env0.writable "tags" = true ∧
      (∃ r s1, main env0 [('a', "")] ["a.c"]
          (fun p => if p = "tags" then some "old\n" else onefile "a.c" "int x;\n" p) =
            some (r, s1) ∧
        (true = true → s1.fs "tags" =
          some (((fun p => if p = "tags" then some "old\n" else onefile "a.c" "int x;\n" p)
            "tags").getD "" ++ concat ((visited s1.tagroot).map tagline)))) ∧
      (∃ r s1, main env0 [('f', "tags")] ["a.c"] (onefile "a.c" "int x;\n") = some (r, s1) ∧
        ∃ r2 s2, main { env0 with junk := fun _ => [] } [('a', ""), ('f', "tags")] ["a.c"]
            s1.fs = some (r2, s2) ∧
          s2.fs "tags" = some (concat ((visited s1.tagroot).map tagline) ++
            concat ((visited s1.tagroot).map tagline))) ∧
      ∃ r s1, main env0 [('f', "tags")] ["a.c"] (onefile "a.c" "int x;") = some (r, s1) ∧
        ∃ r2 s2, main { env0 with junk := fun _ => "YY".data } [('a', ""), ('f', "tags")]
            ["a.c"] s1.fs = some (r2, s2) ∧
          s2.fs "tags" = some (concat ((visited s1.tagroot).map tagline) ++
            concat ((visited s1.tagroot).map tagline)) :=
  ⟨by decide, by decide, rfl,
    (append_content env0 [('a', "")] ["a.c"]
      (fun p => if p = "tags" then some "old\n" else onefile "a.c" "int x;\n" p) "tags" true
      (by decide) (by decide) rfl).imp (fun _ => Exists.imp (fun _ h => ⟨h.1, h.2.2.1⟩)),
    (append_content env0 [('f', "tags")] ["a.c"] (onefile "a.c" "int x;\n") "tags" false
      (by decide) (by decide) rfl).imp (fun _ => Exists.imp (fun _ h => ⟨h.1,
        (h.2.2.2.2.2 rfl (fun _ => []) [('a', ""), ('f', "tags")] (by decide)).imp
          (fun _ => Exists.imp (fun _ g =>
            ⟨g.1, (g.2.2 (by decide) (fun _ _ _ _ _ => rfl)).2.2⟩))⟩)),
    (append_content env0 [('f', "tags")] ["a.c"] (onefile "a.c" "int x;") "tags" false
      (by decide) (by decide) rfl).imp (fun _ => Exists.imp (fun _ h => ⟨h.1,
        (h.2.2.2.2.2 rfl (fun _ => "YY".data) [('a', ""), ('f', "tags")] (by decide)).imp
          (fun _ => Exists.imp (fun _ g =>
            ⟨g.1, (g.2.2 (by decide) (by
              intro p hp content hc hl
              rw [List.mem_singleton.mp hp] at hc
              have hc1 : content = "int x;" := (Option.some.inj hc).symm
              rw [hc1] at hl
              exact absurd hl (by decide))).2.2⟩))⟩))⟩

/-- C18: the code at files whose lines all end with a newline.  The file
a.c with the one line "int x;" gets two calls of the classifier, the second
with line number 2 on the buffer of a `getline` that has read nothing; the
empty file gets one call, with line number 1.  The tag of the extra call
reaches the output: the listing of the one-line file "#define A" has a
second record, for a line 2. -/
theorem scan_extra_turn :
    (addtags env0 "a.c" (init (onefile "a.c" "int x;\n"))).map (fun p => (p.1, p.2.heap)) =
      some (0, [{ id := "identifier", file := "a.c", text := "int x;", line := 1 },
        { id := "identifier", file := "a.c", text := "", line := 2 }]) ∧
    (addtags env0 "a.c" (init (onefile "a.c" ""))).map (fun p => (p.1, p.2.heap)) =
      some (0, [{ id := "identifier", file := "a.c", text := "", line := 1 }]) ∧
    (main env0 [('x', "")] ["a.c"] (onefile "a.c" "#define A\n")).map
        (fun p => (p.1, p.2.stdout)) =
      some (0, "define 1 a.c #define A\nidentifier 2 a.c \n") := by
  decide

/-- C19, as stated, fails: the C-like file a.c with the line "int x;" and
the unterminated last line "#define " yields no tag for its last line.  The
insertion for it is issued, of an identifier tag with the text "#define", but
the store holds the identifier tag of line 1, and the listing and the tag
table have the record of line 1 only. -/
theorem unterminated_define_unrecorded :
    (main env0 [('x', "")] ["a.c"] (onefile "a.c" "int x;\n#define ")).map
        (fun p => (p.1, p.2.heap, p.2.stdout)) =
      some (0,
        [{ id := "identifier", file := "a.c", text := "int x;", line := 1 },
         { id := "identifier", file := "a.c", text := "#define", line := 2 }],
        "identifier 1 a.c int x;\n") ∧
    (main env0 [] ["a.c"] (onefile "a.c" "int x;\n#define ")).map
        (fun p => (p.1, p.2.fs "tags")) =
      some (0, some "identifier\ta.c\t/^int x;$/\n") := by
  decide

/-- C19, amended: the text handed to the classifier is the string that
`getline` has left in the buffer with exactly its last character removed,
whatever that character is (of a buffer that holds a NUL the string is the
part before it).  Each turn of the loop hands over the buffer of its
`getline` treated so.  For a line that ends with a newline the buffer is the
line with its newline, and the text is the line; for a last line without
newline the buffer is the line, and the text lacks its last character.  So
the scan of a C-like file that ends in the unterminated line "#define " does
for that line exactly one insertion, of the tag named identifier with the text
"#define", and none of a define tag.  The line yields this tag when the store
holds no tag of an equal name as the line is reached, as for a file that is
this line alone; when the store holds one, it stays as it is and the line
yields no tag. -/
theorem chop_last_char (junk : List Char) (path : String) (ls : List (List Char)) (s : State)
    (fuel : Nat) (hl : ∀ l ∈ ls, '\n' ∉ l) (hb : s.bracket = 0)
    (hfuel : (filetext ls "#define ".data).length + 2 ≤ fuel) :
    (∀ buf, chop buf = String.mk (cstr buf).dropLast) ∧
    (∀ buf, '\x00' ∉ buf → chop buf = String.mk buf.dropLast) ∧
    (∀ l, '\x00' ∉ l → chop (l ++ ['\n']) = String.mk l) ∧
    (∀ ft k f n s0, scan junk ft path (k + 1) f n s0 =
      if feof f = true then some s0
      else scan junk ft path k (getline junk f).2 (n + 1)
        (classify ft path (chop (getline junk f).1) (n + 1) s0)) ∧
    (∀ l tail e, '\n' ∉ l →
      getline junk { rest := l ++ '\n' :: tail, eof := e } =
        (l ++ ['\n'], { rest := tail, eof := e })) ∧
    (∀ last, last ≠ [] → '\n' ∉ last →
      getline junk { rest := last, eof := false } = (last, { rest := [], eof := true })) ∧
    scan junk filetype.C path fuel { rest := filetext ls "#define ".data, eof := false } 0 s =
      some (addtag "identifier" path "#define" (ls.length + 1)
        (feed filetype.C path (ls.map (fun l => l ++ ['\n'])) 0 s)) ∧
    ((¬ ∃ k ∈ visited (feed filetype.C path (ls.map (fun l => l ++ ['\n'])) 0 s).tagroot,
        compar s.strcoll
          { id := "identifier", file := path, text := "#define", line := ls.length + 1 } k = 0) →
      (visited (addtag "identifier" path "#define" (ls.length + 1)
          (feed filetype.C path (ls.map (fun l => l ++ ['\n'])) 0 s)).tagroot).Perm
        (visited (feed filetype.C path (ls.map (fun l => l ++ ['\n'])) 0 s).tagroot ++
          [{ id := "identifier", file := path, text := "#define", line := ls.length + 1 }])) ∧
    (Collation s.strcoll → searchTree (compar s.strcoll) s.tagroot →
      (∃ k ∈ visited (feed filetype.C path (ls.map (fun l => l ++ ['\n'])) 0 s).tagroot,
        compar s.strcoll
          { id := "identifier", file := path, text := "#define", line := ls.length + 1 } k = 0) →
      (addtag "identifier" path "#define" (ls.length + 1)
          (feed filetype.C path (ls.map (fun l => l ++ ['\n'])) 0 s)).tagroot =
        (feed filetype.C path (ls.map (fun l => l ++ ['\n'])) 0 s).tagroot) := by
  refine ⟨chop_cstr, fun buf h => by rw [chop_cstr, cstr_self buf h], chop_line,
    fun ft k f n s0 => scan_succ junk ft path k f n s0,
    fun l tail e h => getline_line junk l tail e h,
    fun last h0 h => getline_last junk last h0 h, ?_, ?_, ?_⟩
  · rw [scan_filetext junk filetype.C path "#define ".data (by decide) ls fuel 0 s hl hfuel]
    have hne : ¬ "#define ".data = [] := by decide
    rw [if_neg hne, feed_append]
    have hchop : chop "#define ".data = "#define" := by decide
    have hb1 := feed_bracket filetype.C path (ls.map (fun l => l ++ ['\n'])) 0 s hb
    have hcl : ∀ n s0, classify filetype.C path "#define" n s0 = checkcline "#define" n path s0 :=
      fun _ _ => rfl
    rw [hchop, hcl]
    rcases checkcline_cases "#define" ((0 : Int) + (ls.map (fun l => l ++ ['\n'])).length + 1)
        path _ hb1 with ⟨h1, _⟩ | ⟨_, h1, _⟩ | ⟨_, _, e⟩
    · exact absurd ((strstr_isSome _ _).mpr h1) (by decide)
    · exact absurd ((strstr_isSome _ _).mpr h1) (by decide)
    · rw [e]
      simp
  · intro hn
    apply visited_addtag_fresh
    rw [feed_strcoll]
    exact hn
  · intro hc hs hex
    have hf := feed_searchTree filetype.C path (ls.map (fun l => l ++ ['\n'])) 0 s hs
    apply addtag_found
    · rw [hf.1]; exact hc
    · rw [hf.1]; exact hf.2
    · rw [hf.1]; exact hex

theorem chop_last_char_witness :
    (∀ l ∈ ["int x;".data], '\n' ∉ l) ∧ (init (fun _ => none)).bracket = 0 ∧
      (filetext ["int x;".data] "#define ".data).length + 2 ≤ 17 ∧
      scan [] filetype.C "a.c" 17
          { rest := filetext ["int x;".data] "#define ".data, eof := false } 0
          (init (fun _ => none)) =
        some (addtag "identifier" "a.c" "#define" (["int x;".data].length + 1)
          (feed filetype.C "a.c" (["int x;".data].map (fun l => l ++ ['\n'])) 0
            (init (fun _ => none)))) ∧
      (addtag "identifier" "a.c" "#define" (["int x;".data].length + 1)
          (feed filetype.C "a.c" (["int x;".data].map (fun l => l ++ ['\n'])) 0
            (init (fun _ => none)))).tagroot =
        (feed filetype.C "a.c" (["int x;".data].map (fun l => l ++ ['\n'])) 0
          (init (fun _ => none))).tagroot ∧
      (visited (addtag "identifier" "a.c" "#define" (([] : List (List Char)).length + 1)
          (feed filetype.C "a.c" (([] : List (List Char)).map (fun l => l ++ ['\n'])) 0
            (init (fun _ => none)))).tagroot).Perm
        (visited (feed filetype.C "a.c" (([] : List (List Char)).map (fun l => l ++ ['\n'])) 0
            (init (fun _ => none))).tagroot ++
          [{ id := "identifier", file := "a.c", text := "#define",
             line := ([] : List (List Char)).length + 1 }]) :=
  ⟨by decide, rfl, by decide,
    (chop_last_char [] "a.c" ["int x;".data] (init (fun _ => none)) 17 (by decide) rfl
      (by decide)).2.2.2.2.2.2.1,
    (chop_last_char [] "a.c" ["int x;".data] (init (fun _ => none)) 17 (by decide) rfl
      (by decide)).2.2.2.2.2.2.2.2 strcmp_collation trivial
      ⟨{ id := "identifier", file := "a.c", text := "int x;", line := 1 }, by decide,
        by decide⟩,
    (chop_last_char [] "a.c" [] (init (fun _ => none)) 17 (by decide) rfl
      (by decide)).2.2.2.2.2.2.2.1 (by decide)⟩

/-- C20: under a collation, `addtag` keeps the store a search tree, in which
no two tags compare equal by name, and leaves the tree as it is when a tag of
the tree compares equal to the new one.  Hence after every run, in either
mode, the visited tags, whose records are the output, have pairwise
different names, each one of FUNCTION, define, identifier and typedef, so
that they are at most four; and each visited tag is the first tag of its name
among the tags allocated, which are in scan order.  In tag-table mode every
name that was allocated has its record. -/
theorem store_first (env : Env) (opts : List (Char × String)) (operands : List String)
    (fs : String → Option String) (tagsfile : Option String) (append : Bool)
    (ho : getopts opts (some "tags", false) = some (tagsfile, append))
    (hne : operands ≠ [])
    (hw : ∀ path, tagsfile = some path → env.writable path = true)
    (hc : Collation env.ambient) :
    (∀ (s : State) (id file text : String) (line : Int), Collation s.strcoll →
      searchTree (compar s.strcoll) s.tagroot →
        searchTree (compar s.strcoll) (addtag id file text line s).tagroot ∧
        (visited (addtag id file text line s).tagroot).Pairwise
          (fun a b => compar s.strcoll a b ≠ 0 ∧ compar s.strcoll b a ≠ 0) ∧
        ((∃ k ∈ visited s.tagroot,
            compar s.strcoll { id := id, file := file, text := text, line := line } k = 0) →
          (addtag id file text line s).tagroot = s.tagroot)) ∧
    ∃ r s1, main env opts operands fs = some (r, s1) ∧
      (visited s1.tagroot).Pairwise
        (fun a b => compar s1.strcoll a b ≠ 0 ∧ compar s1.strcoll b a ≠ 0) ∧
      ((visited s1.tagroot).map (fun t => t.id)).Nodup ∧
      (∀ t ∈ visited s1.tagroot, t.id ∈ categories) ∧
      (visited s1.tagroot).length ≤ 4 ∧
      (∀ t ∈ visited s1.tagroot, s1.heap.find? (fun x => decide (x.id = t.id)) = some t) ∧
      (∀ h ∈ s1.heap, ∃ k ∈ visited s1.tagroot, compar s1.strcoll h k = 0) ∧
      (∀ path, tagsfile = some path →
        (∀ h ∈ s1.heap, ∃ k ∈ visited s1.tagroot, k.id = h.id) ∧
          s1.output = some (concat ((visited s1.tagroot).map tagline))) ∧
      (tagsfile = none → s1.stdout = concat ((visited s1.tagroot).map listline)) := by
  have sorted_ne : ∀ (coll : String → String → Int), Collation coll → ∀ l : List tag,
      l.Pairwise (fun a b => compar coll a b < 0) →
        l.Pairwise (fun a b => compar coll a b ≠ 0 ∧ compar coll b a ≠ 0) := by
    intro coll hcoll l hl
    refine hl.imp (fun {a b} hab => ?_)
    have h1 := (compar_swap coll hcoll a b).mp hab
    constructor <;> omega
  constructor
  · intro s id file text line hcs hst
    have h1 : searchTree (compar s.strcoll) (addtag id file text line s).tagroot := by
      rw [addtag_tagroot]
      exact searchTree_tsearch _ _ _ hst
    refine ⟨h1, ?_, ?_⟩
    · rw [visited_eq_inorder]
      exact sorted_ne _ hcs _ (inorder_sorted _ hcs _ h1)
    · intro hex
      rw [visited_eq_inorder] at hex
      rw [addtag_tagroot]
      exact tsearch_found _ hcs _ _ hst hex
  · have hcs := start_collation env fs tagsfile append hc
    obtain ⟨r, s1, h, h1, h2, h3, h4, h5, h6⟩ :=
      main_store env opts operands fs tagsfile append ho hne hw hcs
    have hcs1 : Collation s1.strcoll := by rw [h1]; exact hcs
    have hnd : ((visited s1.tagroot).map (fun t => t.id)).Nodup := by
      rw [List.Nodup, List.pairwise_map]
      refine h2.imp (fun {a b} hab e => ?_)
      have h7 : compar s1.strcoll a b = 0 := by
        simp only [compar]
        rw [e]
        exact collation_refl _ hcs1 _
      omega
    have hlen : (visited s1.tagroot).length ≤ 4 := by
      have hsub : (visited s1.tagroot).map (fun t => t.id) ⊆ categories := by
        intro x hx
        obtain ⟨t, ht, e⟩ := List.mem_map.mp hx
        rw [← e]
        exact h3 t ht
      have := (List.subperm_of_subset hnd hsub).length_le
      simpa [categories] using this
    refine ⟨r, s1, h, sorted_ne _ hcs1 _ h2, hnd, h3, hlen, h6, h5, ?_, ?_⟩
    · intro path hp
      subst hp
      obtain ⟨r2, s2, h7, _, h8, _⟩ :=
        main_table_fs env opts operands fs path append ho hne (hw path rfl)
      rw [h] at h7
      cases h7
      refine ⟨fun x hx => ?_, h8⟩
      obtain ⟨k, hk, hk0⟩ := h5 x hx
      have h9 : s1.strcoll = strcmp := h1
      rw [h9] at hk0
      exact ⟨k, hk, ((strcmp_eq_zero _ _).mp hk0).symm⟩
    · intro hp
      subst hp
      obtain ⟨r2, s2, h7, h8, _⟩ := main_listing_fs env opts operands fs append ho hne
      rw [h] at h7
      cases h7
      exact h8

theorem store_first_witness :
    getopts [('x', "")] (some "tags", false) = some (none, false) ∧ ["a.c"] ≠ [] ∧
      (∀ path, (none : Option String) = some path → env0.writable path = true) ∧
      Collation env0.ambient ∧
      ∃ r s1, main env0 [('x', "")] ["a.c"] (onefile "a.c" "int x;\nint y;\n") = some (r, s1) ∧
        (visited s1.tagroot).length ≤ 4 ∧
        (∀ t ∈ visited s1.tagroot,
          s1.heap.find? (fun x => decide (x.id = t.id)) = some t) :=
  ⟨by decide, by decide, (fun _ h => by cases h), strcmp_collation,
    (store_first env0 [('x', "")] ["a.c"] (onefile "a.c" "int x;\nint y;\n") none false
      (by decide) (by decide) (fun _ h => by cases h) strcmp_collation).2.imp
      (fun _ => Exists.imp (fun _ h => ⟨h.1, h.2.2.2.2.1, h.2.2.2.2.2.1⟩))⟩

end Ctags
